import Mathlib

/-!
Human readable number codec of `src-api/common/string.c`.

A shallow embedding of the conversion routines between 64 bit integers and
magnitude-suffixed strings (`str_get_human_readable_u64`,
`str_get_human_readable_s64`, `str_parse_human_readable_u64`,
`str_parse_human_readable_s64`) together with the string helpers they call
(`strscpy`, `strscat`).

Conventions of the embedding:

* a C string is the `List Char` of the characters in front of its terminating
  NUL; the end of the list plays the role of the NUL byte;
* `uint64_t` values are naturals below `2 ^ 64`, every multiplication and
  addition of the source is followed by an explicit `% 2 ^ 64`;
* `int` and `int64_t` values are integers, conversions between the signed and
  the unsigned 64 bit type are two's complement;
* `sizeof(struct human_readable_str)` comes from `common/string.h`; it is the
  parameter `out_len` of the encoders;
* the encoder can stop abnormally (division by zero, failed `assert`, store
  behind the end of the buffer); this is the `Fault` of its `Except` result;
* `strscpy` and `strscat` are given twice, on the level of strings (used by the
  encoder) and on the bytes of the buffer (`strscpy_at`, `strscat_bytes`);
  `strscat_bytes_spec` relates the two.
-/

namespace OONF

/-! ## Machine integers -/

/-- Largest value of a C `uint64_t`. -/
def UINT64_MAX : Nat := 2 ^ 64 - 1

/-- Smallest value of a C `int64_t`. -/
def INT64_MIN : Int := -(2 ^ 63)

/-- Conversion of an integer to `int64_t` (two's complement wrap-around). -/
def to_int64 (x : Int) : Int := (x + 2 ^ 63) % 2 ^ 64 - 2 ^ 63

/-- Conversion of an integer to `uint64_t` (reduction modulo `2 ^ 64`). -/
def to_uint64 (x : Int) : Nat := (x % 2 ^ 64).toNat

/-! ## C library functions used by the codec -/

/-- C `isspace` in the "C" locale: space, `\t`, `\n`, `\v`, `\f`, `\r`. -/
def isspace (c : Char) : Bool :=
  c = ' ' || (9 ≤ c.toNat && c.toNat ≤ 13)

/-- The test `c >= '0' && c <= '9'`. -/
def is_digit (c : Char) : Bool :=
  decide ('0'.toNat ≤ c.toNat) && decide (c.toNat ≤ '9'.toNat)

/-- The value `c - '0'` of a decimal digit character. -/
def digit_value (c : Char) : Nat := c.toNat - '0'.toNat

/-- Exact value of a run of decimal digits continuing the value `acc`. -/
def decimal_value (acc : Nat) (cs : List Char) : Nat :=
  cs.foldl (fun a c => a * 10 + digit_value c) acc

/-- Outcome of `strtoull`: returned value, end pointer and whether `errno`
was set to `ERANGE`. -/
structure StrtoullResult where
  value : Nat
  next : List Char
  erange : Bool
  deriving DecidableEq

/-- C `strtoull(s, &next, 10)`: white space is skipped, one sign is accepted,
then the longest run of decimal digits is converted. Without any digit the
value is 0 and `next` is the start of the input. A magnitude above
`UINT64_MAX` gives `UINT64_MAX` and `ERANGE`, the only case in which `errno`
is set; a leading `-` negates the value in 64 bit unsigned arithmetic. -/
def strtoull (s : List Char) : StrtoullResult :=
  let t := s.dropWhile isspace
  let neg := t.head? = some '-'
  let u := if t.head? = some '-' ∨ t.head? = some '+' then t.tail else t
  let ds := u.takeWhile is_digit
  if ds = [] then ⟨0, s, false⟩
  else
    let v := decimal_value 0 ds
    if v > UINT64_MAX then ⟨UINT64_MAX, u.dropWhile is_digit, true⟩
    else ⟨if neg then (2 ^ 64 - v) % 2 ^ 64 else v, u.dropWhile is_digit, false⟩

/-- The text written by `snprintf(out, out_len, "%" PRIu64, x)` when it fits:
the decimal digits of `x`. -/
def print_u64 (x : Nat) : List Char := Nat.toDigits 10 x

/-! ## Truncating copy and append -/

/-- Function `strscpy(dest, src, size)` on the level of C strings: the content
of `dest` afterwards. With `size = 0` nothing is written, otherwise
`strncpy` copies at most `size - 1` characters and `dest[size-1] = 0`
terminates the string. -/
def strscpy (dest src : List Char) (size : Nat) : List Char :=
  if size = 0 then dest else src.take (size - 1)

/-- Function `strscat(dest, src, size)` for non-NULL arguments: the content of
`dest` afterwards. The copy starts at `dest + l` with the remaining capacity
`size - l`. -/
def strscat (dest src : List Char) (size : Nat) : List Char :=
  if size = 0 ∨ src = [] then dest
  else
    let l := dest.length
    if l < size then dest ++ strscpy [] src (size - l) else dest

/-- The NUL byte that ends a C string. -/
def NUL : Char := Char.ofNat 0

/-- The C string a buffer holds: the bytes in front of its first NUL. Its length
is `strlen`. -/
def cstring : List Char → List Char
  | [] => []
  | c :: cs => if c = NUL then [] else c :: cstring cs

/-- C `strncpy(dest + off, src, n)` on the bytes `buf` of the buffer of `dest`:
exactly `n` bytes are written, the first `n` characters of `src` and, when
`src` is shorter, NUL bytes. -/
def strncpy_at (buf : List Char) (off : Nat) (src : List Char) (n : Nat) : List Char :=
  buf.take off ++ (src.take n ++ List.replicate (n - src.length) NUL) ++ buf.drop (off + n)

/-- Function `strscpy(dest + off, src, size)` on the bytes of the buffer:
`strncpy(dest, src, size-1); dest[size-1] = 0;` unless `size` is 0. -/
def strscpy_at (buf : List Char) (off : Nat) (src : List Char) (size : Nat) : List Char :=
  if size = 0 then buf
  else (strncpy_at buf off src (size - 1)).set (off + (size - 1)) NUL

/-- Function `strscat(dest, src, size)` on the bytes `buf` of the buffer of
`dest`, for non-NULL arguments; `l` is `strlen(dest)`. -/
def strscat_bytes (buf src : List Char) (size : Nat) : List Char :=
  if size = 0 ∨ src = [] then buf
  else
    let l := (cstring buf).length
    if l < size then strscpy_at buf l src (size - l) else buf

/-! ## Decoder -/

/-- The loop `while (*next >= '0' && *next <= '9' && frac < fraction)` of the
fractional part; the result is `(num, frac, next)` after the loop. -/
def fraction_digits (fraction : Int) : List Char → Nat → Int → Nat × Int × List Char
  | [], num, frac => (num, frac, [])
  | c :: cs, num, frac =>
    if is_digit c ∧ frac < fraction then
      fraction_digits fraction cs ((num * 10 % 2 ^ 64 + digit_value c) % 2 ^ 64) (frac + 1)
    else (num, frac, c :: cs)

/-- The loop `while (frac++ < fraction) num *= 10;`, which runs `count` times. -/
def fraction_pad : Nat → Nat → Nat
  | 0, num => num
  | count + 1, num => fraction_pad count (num * 10 % 2 ^ 64)

/-- Number of `factor *= multiplicator` statements the `switch` runs for the
suffix character, falling through from its `case` label down to `case ' '`;
`none` is the `default` label. -/
def iso_prefix_steps (c : Char) : Option Nat :=
  if c = 'E' then some 6
  else if c = 'P' then some 5
  else if c = 'T' then some 4
  else if c = 'G' then some 3
  else if c = 'M' then some 2
  else if c = 'k' then some 1
  else if c = ' ' then some 0
  else none

/-- The value of `factor` after `steps` statements `factor *= multiplicator`,
starting from `factor`. -/
def iso_prefix_factor (multiplicator : Nat) : Nat → Nat → Nat
  | 0, factor => factor
  | steps + 1, factor => iso_prefix_factor multiplicator steps (factor * multiplicator % 2 ^ 64)

/-- Where the first part of `str_parse_human_readable_u64` (everything in front
of the overflow check of the scaling) ends. -/
inductive Scan where
  /-- A `return -1` was reached. -/
  | failed
  /-- The string ended behind the integer: `*dst = num; return 0;`. -/
  | plain (num : Nat)
  /-- The scaling step is reached with these values of `num` and `factor`. -/
  | scaling (num factor : Nat)
  deriving DecidableEq

/-- Lines 562-600 of `str_parse_human_readable_u64`: the spaces are skipped,
then the rest has to be empty or one suffix character. -/
def scan_suffix (binary : Bool) (num : Nat) (next : List Char) : Scan :=
  match next.dropWhile (fun x => x = ' ') with
  | [] => Scan.scaling num 1
  | [s] =>
    let multiplicator := if binary then 1024 else 1000
    match iso_prefix_steps s with
    | some steps => Scan.scaling num (iso_prefix_factor multiplicator steps 1)
    | none => Scan.failed
  | _ :: _ :: _ => Scan.failed

/-- Lines 536-600 of `str_parse_human_readable_u64`: integer, fractional part,
spaces and suffix. -/
def scan_human_readable (hrn : List Char) (fraction : Int) (binary : Bool) : Scan :=
  let r := strtoull hrn
  if r.erange then Scan.failed
  else
    match r.next with
    | [] => Scan.plain r.value
    | c :: cs =>
      let st : Nat × Int × List Char :=
        if c = '.' then fraction_digits fraction cs r.value 0 else (r.value, 0, c :: cs)
      scan_suffix binary (fraction_pad (fraction - st.2.1).toNat st.1) st.2.2

/-- Function `str_parse_human_readable_u64(dst, hrn, fraction, binary)`: the
returned `int` and the content of `*dst` afterwards, `dst` being its content
before the call. -/
def str_parse_human_readable_u64 (dst : Nat) (hrn : List Char) (fraction : Int)
    (binary : Bool) : Int × Nat :=
  match scan_human_readable hrn fraction binary with
  | Scan.failed => (-1, dst)
  | Scan.plain num => (0, num)
  | Scan.scaling num factor =>
    if num > UINT64_MAX / factor then (-1, dst)
    else (0, num * factor % 2 ^ 64)

/-- Function `str_parse_human_readable_s64(dst, hrn, fractions, binary)`: the
returned `int` and the content of `*dst` afterwards. The local `u64` is not
initialised in the source; it is read only after the unsigned parser has
assigned it, its initial content is taken as 0. -/
def str_parse_human_readable_s64 (dst : Int) (hrn : List Char) (fractions : Int)
    (binary : Bool) : Int × Int :=
  let ptr := if hrn.head? = some '-' then hrn.tail else hrn
  let r := str_parse_human_readable_u64 0 ptr fractions binary
  if r.1 = 0 then
    if hrn.head? = some '-' then (r.1, to_int64 (-(to_int64 r.2)))
    else (r.1, to_int64 r.2)
  else (r.1, dst)

/-! ## Encoder -/

/-- Abnormal ends of the encoder. -/
inductive Fault where
  /-- A division or remainder by `multiplier = 0`. -/
  | div_by_zero
  /-- The statement `assert (print < 10)` fails. -/
  | assertion
  /-- A store `out[i] = ...` with `i >= out_len`. -/
  | overrun
  /-- The iteration bound of the embedding is used up (never the case, see
  `encoder_fuel_suffices`). -/
  | fuel
  deriving DecidableEq

deriving instance DecidableEq for Except

/-- The table `symbol[] = " kMGTPE"`; the terminating NUL is the end of the list. -/
def symbol : List Char := [' ', 'k', 'M', 'G', 'T', 'P', 'E']

/-- The character `*unit_modifier`, `unit_modifier` pointing at the rest `p` of
`symbol`. -/
def deref (p : List Char) : Char := p.headD (Char.ofNat 0)

/-- The loop `while (fraction-- > 0) multiplier *= 10;`, which runs `count`
times. -/
def fraction_scale : Nat → Nat → Nat
  | 0, multiplier => multiplier
  | count + 1, multiplier => fraction_scale count (multiplier * 10 % 2 ^ 64)

/-- The loop
`while (!raw && *unit_modifier != 0 && number >= multiplier * step)`;
the result is `(multiplier, unit_modifier)` after the loop. -/
def scale_loop (raw : Bool) (number step : Nat) : List Char → Nat → Nat × List Char
  | [], multiplier => (multiplier, [])
  | c :: cs, multiplier =>
    if raw = false ∧ number ≥ multiplier * step % 2 ^ 64 then
      scale_loop raw number step cs (multiplier * step % 2 ^ 64)
    else (multiplier, c :: cs)

/-- The loop `while (true)` that writes the fractional digits. `out` holds the
characters `out[0] .. out[len-1]` written so far (`len` is its length), the
result is `(out, idx)` after the loop. At most 20 iterations are possible
because `multiplier` is divided by 10 in each of them. -/
def fraction_loop (out_len : Nat) :
    Nat → Nat → Nat → Int → List Char → Nat → Except Fault (List Char × Nat)
  | 0, _, _, _, _, _ => Except.error Fault.fuel
  | fuel + 1, n, multiplier, fraction, out, idx =>
    if multiplier = 0 then Except.error Fault.div_by_zero
    else if n % multiplier = 0 ∨ fraction = 0 then Except.ok (out, idx)
    else if multiplier / 10 = 0 then Except.error Fault.div_by_zero
    else if ¬ (n % multiplier / (multiplier / 10) < 10) then Except.error Fault.assertion
    else if ¬ (out.length < out_len) then Except.error Fault.overrun
    else
      fraction_loop out_len fuel (n % multiplier) (multiplier / 10) (fraction - 1)
        (out ++ [Char.ofNat ('0'.toNat + n % multiplier / (multiplier / 10))])
        (if n % multiplier / (multiplier / 10) ≠ 0 then out.length + 1 else idx)

/-- Function `_get_human_readable_u64(out, out_len, number, unit, fraction,
binary, raw)`: the C string in `out` afterwards. -/
def _get_human_readable_u64 (out_len : Nat) (number : Nat) (unit : Option (List Char))
    (fraction : Int) (binary raw : Bool) : Except Fault (List Char) :=
  let step := if binary then 1024 else 1000
  let multiplier := fraction_scale fraction.toNat 1
  let fraction := min fraction 0 - 1
  let sc := scale_loop raw number step symbol multiplier
  let multiplier := sc.1
  let unit_modifier := sc.2
  if multiplier = 0 then Except.error Fault.div_by_zero
  else
    let whole := print_u64 (number / multiplier)
    if ¬ (whole.length < out_len) then Except.error Fault.overrun
    else
      let fraction := if deref unit_modifier ≠ ' ' then 3 else fraction
      match fraction_loop out_len 21 number multiplier fraction (whole ++ ['.']) whole.length with
      | Except.error e => Except.error e
      | Except.ok (out, idx) =>
        if ¬ (idx + 2 < out_len) then Except.error Fault.overrun
        else
          let text := out.take idx ++ [' '] ++ unit_modifier.take 1
          match unit with
          | none => Except.ok text
          | some u => Except.ok (strscat text u out_len)

/-- Function `str_get_human_readable_u64(out, number, unit, fraction, binary,
raw)`; `out_len` is `sizeof(*out)`. -/
def str_get_human_readable_u64 (out_len : Nat) (number : Nat) (unit : Option (List Char))
    (fraction : Int) (binary raw : Bool) : Except Fault (List Char) :=
  _get_human_readable_u64 out_len number unit fraction binary raw

/-- What `str_get_human_readable_s64` leaves behind: the C string in
`out->buf` and the C string the returned pointer points to. -/
structure SignedText where
  buf : List Char
  ret : List Char
  deriving DecidableEq

/-- Function `str_get_human_readable_s64(out, number, unit, fraction, binary,
raw)`; `out_len` is `sizeof(*out)`. Only the branch for `INT64_MIN` stores a
`'-'` and advances `outbuf`; the returned pointer is the `out` argument of
`_get_human_readable_u64`, that is `outbuf`. -/
def str_get_human_readable_s64 (out_len : Nat) (number : Int) (unit : Option (List Char))
    (fraction : Int) (binary raw : Bool) : Except Fault SignedText :=
  if number = INT64_MIN then
    if out_len = 0 then Except.error Fault.overrun
    else
      match _get_human_readable_u64 (out_len - 1) (2 ^ 63) unit fraction binary raw with
      | Except.error e => Except.error e
      | Except.ok s => Except.ok ⟨'-' :: s, s⟩
  else if number < 0 then
    match _get_human_readable_u64 out_len (to_uint64 (-number)) unit fraction binary raw with
    | Except.error e => Except.error e
    | Except.ok s => Except.ok ⟨s, s⟩
  else
    match _get_human_readable_u64 out_len (to_uint64 number) unit fraction binary raw with
    | Except.error e => Except.error e
    | Except.ok s => Except.ok ⟨s, s⟩

/-! ## Reference rendering used by the statements -/

/-- The fractional digits of `r / 10 ^ e` for `r < 10 ^ e`, without trailing
zeros: the text the encoder writes behind the decimal point when its
multiplier is `10 ^ e` and no digit limit applies. -/
def frac_text : Nat → Nat → List Char
  | 0, _ => []
  | e + 1, r =>
    if r = 0 then [] else Char.ofNat ('0'.toNat + r / 10 ^ e) :: frac_text e (r % 10 ^ e)

/-! ## Characters and decimal numerals -/

/-- The digits are the characters with codes 48 to 57. -/
theorem is_digit_iff (c : Char) : is_digit c = true ↔ 48 ≤ c.toNat ∧ c.toNat ≤ 57 := by
  simp [is_digit]

/-- The character `'0' + d` written by the encoder for `d < 10` is a digit of
value `d`. -/
theorem digit_char_facts (d : Nat) (h : d < 10) :
    is_digit (Char.ofNat ('0'.toNat + d)) = true ∧ digit_value (Char.ofNat ('0'.toNat + d)) = d := by
  interval_cases d <;> exact ⟨rfl, rfl⟩

/-- The character printed for a decimal digit `d < 10` is a digit of value `d`. -/
theorem digitChar_facts (d : Nat) (h : d < 10) :
    is_digit (Nat.digitChar d) = true ∧ digit_value (Nat.digitChar d) = d := by
  interval_cases d <;> exact ⟨rfl, rfl⟩

/-- A digit is no white space, no sign, no decimal point. -/
theorem is_digit_not_special (c : Char) (h : is_digit c = true) :
    isspace c = false ∧ c ≠ '-' ∧ c ≠ '+' ∧ c ≠ '.' ∧ c ≠ ' ' := by
  rw [is_digit_iff] at h
  refine ⟨?_, ?_, ?_, ?_, ?_⟩
  · simp only [isspace, Bool.or_eq_false_iff, decide_eq_false_iff_not, Bool.and_eq_false_iff]
    constructor
    · rintro rfl; revert h; decide
    · right; omega
  all_goals (rintro rfl; revert h; decide)

/-- The value of a digit run is computed from left to right. -/
theorem decimal_value_append (acc : Nat) (xs ys : List Char) :
    decimal_value acc (xs ++ ys) = decimal_value (decimal_value acc xs) ys := by
  simp [decimal_value, List.foldl_append]

/-- Core of `Nat.toDigits`: with enough fuel the digits of `n` are put in front of `ds`. -/
theorem toDigitsCore_spec (fuel : Nat) : ∀ (n : Nat) (ds : List Char), n < fuel →
    ∃ pre, Nat.toDigitsCore 10 fuel n ds = pre ++ ds ∧ pre ≠ [] ∧
      (∀ c ∈ pre, is_digit c = true) ∧ decimal_value 0 pre = n := by
  induction fuel with
  | zero => intro n ds h; omega
  | succ fuel ih =>
    intro n ds h
    have hd := digitChar_facts (n % 10) (Nat.mod_lt _ (by decide))
    by_cases h0 : n / 10 = 0
    · refine ⟨[Nat.digitChar (n % 10)], ?_, by simp, ?_, ?_⟩
      · simp [Nat.toDigitsCore, h0]
      · intro c hc; simp at hc; subst hc; exact hd.1
      · simp [decimal_value, hd.2]; omega
    · obtain ⟨pre, hp, hne, hdig, hval⟩ := ih (n / 10) (Nat.digitChar (n % 10) :: ds) (by omega)
      refine ⟨pre ++ [Nat.digitChar (n % 10)], ?_, by simp, ?_, ?_⟩
      · simp [Nat.toDigitsCore, h0, hp]
      · intro c hc
        rcases List.mem_append.1 hc with hc | hc
        · exact hdig c hc
        · simp at hc; subst hc; exact hd.1
      · rw [decimal_value_append, hval]; simp [decimal_value, hd.2]; omega

/-- The text printed for `n` is a non-empty run of digits of value `n`. -/
theorem print_u64_spec (n : Nat) :
    print_u64 n ≠ [] ∧ (∀ c ∈ print_u64 n, is_digit c = true) ∧ decimal_value 0 (print_u64 n) = n := by
  obtain ⟨pre, hp, hne, hdig, hval⟩ := toDigitsCore_spec (n + 1) n [] (by omega)
  simp only [List.append_nil] at hp
  simp only [print_u64, Nat.toDigits, hp]
  exact ⟨hne, hdig, hval⟩

/-- A number below `10 ^ e` is printed with at most `e` digits. -/
theorem print_u64_length (n e : Nat) (he : 0 < e) (h : n < 10 ^ e) : (print_u64 n).length ≤ e :=
  Nat.toDigitsCore_length 10 (by decide) (n + 1) n e h he

/-- A digit run in front of a text that does not start with a digit is the
longest digit prefix. -/
theorem takeWhile_digits (pre rest : List Char) (hdig : ∀ c ∈ pre, is_digit c = true)
    (hrest : ∀ c, rest.head? = some c → is_digit c = false) :
    (pre ++ rest).takeWhile is_digit = pre ∧ (pre ++ rest).dropWhile is_digit = rest := by
  induction pre with
  | nil =>
    cases rest with
    | nil => simp
    | cons c cs => simp [List.takeWhile, List.dropWhile, hrest c rfl]
  | cons c cs ih =>
    have hc := hdig c (List.mem_cons_self _ _)
    have := ih (fun x hx => hdig x (List.mem_cons_of_mem _ hx))
    simp [List.takeWhile, List.dropWhile, hc, this.1, this.2]

/-- Function `strtoull` on a digit run followed by a text that does not start
with a digit. -/
theorem strtoull_digits (pre rest : List Char) (hne : pre ≠ [])
    (hdig : ∀ c ∈ pre, is_digit c = true)
    (hrest : ∀ c, rest.head? = some c → is_digit c = false) :
    strtoull (pre ++ rest) =
      if decimal_value 0 pre > UINT64_MAX then ⟨UINT64_MAX, rest, true⟩
      else ⟨decimal_value 0 pre, rest, false⟩ := by
  obtain ⟨c, cs, rfl⟩ := List.exists_cons_of_ne_nil hne
  have hc := is_digit_not_special c (hdig c (List.mem_cons_self _ _))
  have htd := takeWhile_digits (c :: cs) rest hdig hrest
  have h1 : List.dropWhile isspace (c :: cs ++ rest) = c :: cs ++ rest := by
    simp [List.dropWhile, hc.1]
  unfold strtoull
  simp only [h1]
  have h2 : (c :: cs ++ rest).head? = some c := rfl
  simp only [h2, Option.some.injEq, hc.2.1, hc.2.2.1, or_self, if_false, htd.1, htd.2]
  simp

/-! ## The fractional digit loops -/

/-- The digit loop of the encoder for the multiplier `10 ^ e` and a negative
`fraction` (no digit limit): it writes `frac_text e (n % 10 ^ e)` and leaves
`idx` behind the last digit, or where it was when there is no digit. -/
theorem fraction_loop_pow10 (out_len : Nat) (e : Nat) : ∀ (fuel n : Nat) (fr : Int)
    (out : List Char) (idx : Nat), e < fuel → fr < 0 → out.length + e ≤ out_len →
    fraction_loop out_len fuel n (10 ^ e) fr out idx =
      Except.ok (out ++ frac_text e (n % 10 ^ e),
        if n % 10 ^ e = 0 then idx else out.length + (frac_text e (n % 10 ^ e)).length) := by
  induction e with
  | zero =>
    intro fuel n fr out idx hf hfr hlen
    obtain ⟨k, rfl⟩ : ∃ k, fuel = k + 1 := ⟨fuel - 1, by omega⟩
    simp [fraction_loop, Nat.mod_one, frac_text]
  | succ e ih =>
    intro fuel n fr out idx hf hfr hlen
    obtain ⟨k, rfl⟩ : ∃ k, fuel = k + 1 := ⟨fuel - 1, by omega⟩
    have hpos : 0 < 10 ^ e := Nat.pow_pos (by decide)
    have hm : 10 ^ (e + 1) / 10 = 10 ^ e := by
      rw [Nat.pow_succ]; exact Nat.mul_div_cancel _ (by decide)
    have hm0 : 10 ^ (e + 1) ≠ 0 := (Nat.pow_pos (by decide)).ne'
    have hlt : n % 10 ^ (e + 1) < 10 ^ (e + 1) := Nat.mod_lt _ (Nat.pow_pos (by decide))
    have hd : n % 10 ^ (e + 1) / 10 ^ e < 10 := by
      rw [Nat.div_lt_iff_lt_mul hpos, Nat.mul_comm, ← Nat.pow_succ]; exact hlt
    by_cases hz : n % 10 ^ (e + 1) = 0
    · simp [fraction_loop, hz, frac_text]
    · have hfr0 : fr ≠ 0 := by omega
      have hol : out.length < out_len := by omega
      rw [fraction_loop]
      simp only [hm0, if_false, hz, hfr0, or_self, hm, hpos.ne', hd, not_true_eq_false, hol]
      rw [ih k _ (fr - 1) _ _ (by omega) (by omega) (by simp; omega)]
      simp only [frac_text, hz, if_false, List.append_assoc, List.singleton_append,
        List.length_append, List.length_singleton, List.length_cons]
      congr 1
      by_cases hz2 : n % 10 ^ (e + 1) % 10 ^ e = 0
      · have hne : n % 10 ^ (e + 1) / 10 ^ e ≠ 0 := by
          intro h0
          have := Nat.div_add_mod (n % 10 ^ (e + 1)) (10 ^ e)
          rw [h0, hz2] at this
          simp at this
          exact hz this.symm
        have hft : frac_text e 0 = [] := by cases e <;> simp [frac_text]
        simp [hz2, hne, hft]
      · simp [hz2]; omega

/-- The digit loop of the decoder reads the text `frac_text e r` completely
and without wrap-around when the budget allows `e` digits; padded to `e`
places the value is `num * 10 ^ e + r`. -/
theorem fraction_digits_text (fraction : Int) (tail : List Char)
    (htail : ∀ c, tail.head? = some c → is_digit c = false) (e : Nat) :
    ∀ (r num : Nat) (frac : Int), r < 10 ^ e → frac + e ≤ fraction →
      num * 10 ^ e + r < 2 ^ 64 →
      ∃ num', fraction_digits fraction (frac_text e r ++ tail) num frac =
          (num', frac + (frac_text e r).length, tail) ∧
        (frac_text e r).length ≤ e ∧
        num' * 10 ^ (e - (frac_text e r).length) = num * 10 ^ e + r := by
  have base : ∀ (num : Nat) (frac : Int), fraction_digits fraction tail num frac = (num, frac, tail) := by
    intro num frac
    cases tail with
    | nil => rfl
    | cons c cs => simp [fraction_digits, htail c rfl]
  induction e with
  | zero =>
    intro r num frac hr _ _
    refine ⟨num, ?_, ?_, ?_⟩
    · simp [frac_text, base]
    · simp [frac_text]
    · simp at hr; simp [frac_text, hr]
  | succ e ih =>
    intro r num frac hr hfrac hno
    have hpos : 0 < 10 ^ e := Nat.pow_pos (by decide)
    by_cases hz : r = 0
    · subst hz
      exact ⟨num, by simp [frac_text, base], by simp [frac_text], by simp [frac_text]⟩
    · have hd : r / 10 ^ e < 10 := by
        rw [Nat.div_lt_iff_lt_mul hpos, Nat.mul_comm, ← Nat.pow_succ]; exact hr
      have hdc := digit_char_facts (r / 10 ^ e) hd
      have hsplit : r / 10 ^ e * 10 ^ e + r % 10 ^ e = r := by
        rw [Nat.mul_comm]; exact Nat.div_add_mod r (10 ^ e)
      have hexp : num * 10 ^ (e + 1) = num * 10 * 10 ^ e := by
        rw [Nat.pow_succ]; ring
      have hstep : (num * 10 + r / 10 ^ e) * 10 ^ e + r % 10 ^ e = num * 10 ^ (e + 1) + r := by
        rw [hexp, Nat.add_mul, Nat.add_assoc, hsplit]
      have hle : num * 10 + r / 10 ^ e ≤ (num * 10 + r / 10 ^ e) * 10 ^ e :=
        Nat.le_mul_of_pos_right _ hpos
      have hsmall : num * 10 + r / 10 ^ e < 2 ^ 64 := by omega
      have hnum : (num * 10 % 2 ^ 64 + r / 10 ^ e) % 2 ^ 64 = num * 10 + r / 10 ^ e := by
        rw [Nat.mod_eq_of_lt (by omega : num * 10 < 2 ^ 64), Nat.mod_eq_of_lt hsmall]
      obtain ⟨num', h1, h2, h3⟩ := ih (r % 10 ^ e) (num * 10 + r / 10 ^ e) (frac + 1)
        (Nat.mod_lt _ hpos) (by push_cast at hfrac ⊢; omega) (by omega)
      refine ⟨num', ?_, ?_, ?_⟩
      · have hfl : frac < fraction := by push_cast at hfrac; omega
        simp only [frac_text, hz, if_false, List.cons_append, fraction_digits, hdc.1, hfl,
          and_self, if_true, hdc.2, hnum, h1, List.length_cons]
        push_cast
        simp [add_assoc, add_comm]
      · simp only [frac_text, hz, if_false, List.length_cons]; omega
      · simp only [frac_text, hz, if_false, List.length_cons]
        rw [Nat.add_sub_add_right, h3, hstep]

/-- The padding loop multiplies by `10 ^ count` when that does not wrap. -/
theorem fraction_pad_exact : ∀ (count num : Nat), num * 10 ^ count < 2 ^ 64 →
    fraction_pad count num = num * 10 ^ count := by
  intro count
  induction count with
  | zero => intro num _; simp [fraction_pad]
  | succ k ih =>
    intro num h
    have hexp : num * 10 ^ (k + 1) = num * 10 * 10 ^ k := by rw [Nat.pow_succ]; ring
    have hpos : 0 < 10 ^ k := Nat.pow_pos (by decide)
    have hle : num * 10 ≤ num * 10 * 10 ^ k := Nat.le_mul_of_pos_right _ hpos
    rw [fraction_pad, Nat.mod_eq_of_lt (by omega), ih _ (by omega), hexp]

/-- No fractional digits are written for 0. -/
theorem frac_text_zero (e : Nat) : frac_text e 0 = [] := by cases e <;> simp [frac_text]

/-- The scaling loop multiplies by `10 ^ count` when that does not wrap. -/
theorem fraction_scale_exact : ∀ (count m : Nat), m * 10 ^ count < 2 ^ 64 →
    fraction_scale count m = m * 10 ^ count := by
  intro count
  induction count with
  | zero => intro m _; simp [fraction_scale]
  | succ k ih =>
    intro m h
    have hexp : m * 10 ^ (k + 1) = m * 10 * 10 ^ k := by rw [Nat.pow_succ]; ring
    have hpos : 0 < 10 ^ k := Nat.pow_pos (by decide)
    have hle : m * 10 ≤ m * 10 * 10 ^ k := Nat.le_mul_of_pos_right _ hpos
    rw [fraction_scale, Nat.mod_eq_of_lt (by omega), ih _ (by omega), hexp]

/-- The powers of ten up to `10 ^ 19` are 64 bit values. -/
theorem pow10_lt (e : Nat) (he : e ≤ 19) : 10 ^ e < 2 ^ 64 :=
  lt_of_le_of_lt (Nat.pow_le_pow_right (by decide) he) (by norm_num)

/-- Raw rendering of `n` with `e` fractional places. -/
theorem raw_encode (out_len n e : Nat) (hn : n < 2 ^ 64) (he : e ≤ 19) (hlen : 24 ≤ out_len) :
    _get_human_readable_u64 out_len n none (e : Int) false true =
      Except.ok (print_u64 (n / 10 ^ e) ++
        (if n % 10 ^ e = 0 then [] else '.' :: frac_text e (n % 10 ^ e)) ++ [' ', ' ']) := by
  have hp := pow10_lt e he
  have hpos : 0 < 10 ^ e := Nat.pow_pos (by decide)
  have hq : n / 10 ^ e < 10 ^ (20 - e) := by
    rw [Nat.div_lt_iff_lt_mul hpos, ← Nat.pow_add, Nat.sub_add_cancel (by omega)]
    exact lt_trans hn (by norm_num)
  have hwl := print_u64_length (n / 10 ^ e) (20 - e) (by omega) hq
  have hsc : fraction_scale e 1 = 10 ^ e := by
    rw [fraction_scale_exact e 1 (by simpa using hp)]; simp
  have hfl := fraction_loop_pow10 out_len e 21 n (min (e : Int) 0 - 1)
    (print_u64 (n / 10 ^ e) ++ ['.']) (print_u64 (n / 10 ^ e)).length (by omega) (by omega)
    (by simp; omega)
  have hlt : ∀ (r : Nat), r < 10 ^ e → (frac_text e r).length ≤ e := by
    intro r hr
    obtain ⟨_, _, h, _⟩ := fraction_digits_text 0 [] (by simp) e r 0 (-e) hr (by simp)
      (by simpa using lt_of_lt_of_le hr (le_of_lt hp))
    exact h
  have hfe := hlt (n % 10 ^ e) (Nat.mod_lt _ hpos)
  unfold _get_human_readable_u64
  simp only [Int.toNat_ofNat, hsc, scale_loop, symbol, Bool.true_eq_false, false_and, if_false,
    hpos.ne', deref, List.headD_cons, ne_eq, not_true_eq_false]
  rw [if_neg (by omega), hfl]
  by_cases hz : n % 10 ^ e = 0
  · simp only [hz, if_true, frac_text_zero, List.append_nil]
    rw [if_neg (by omega)]
    simp
  · simp only [hz, if_false]
    rw [if_neg (by simp; omega)]
    rw [List.take_of_length_le (by simp; omega)]
    simp

/-- The parser stores `n` when the scan reaches the scaling step with `n` and the
factor 1. -/
theorem parse_of_scan_unscaled (dst : Nat) (hrn : List Char) (fraction : Int) (binary : Bool)
    (n : Nat) (hn : n < 2 ^ 64) (h : scan_human_readable hrn fraction binary = Scan.scaling n 1) :
    str_parse_human_readable_u64 dst hrn fraction binary = (0, n) := by
  have h1 : ¬ n > UINT64_MAX / 1 := by simp only [UINT64_MAX]; omega
  simp only [str_parse_human_readable_u64, h, h1, if_false, Nat.mul_one, Nat.mod_eq_of_lt hn]

/-- The decoder reads the raw rendering of `n` with `e` fractional places back
as `n`. -/
theorem raw_decode (dst n e : Nat) (binary : Bool) (hn : n < 2 ^ 64) :
    str_parse_human_readable_u64 dst (print_u64 (n / 10 ^ e) ++
        (if n % 10 ^ e = 0 then [] else '.' :: frac_text e (n % 10 ^ e)) ++ [' ', ' '])
      (e : Int) binary = (0, n) := by
  apply parse_of_scan_unscaled _ _ _ _ _ hn
  have hpos : 0 < 10 ^ e := Nat.pow_pos (by decide)
  have hsplit : n / 10 ^ e * 10 ^ e + n % 10 ^ e = n := by
    rw [Nat.mul_comm]; exact Nat.div_add_mod n (10 ^ e)
  obtain ⟨hne, hdig, hval⟩ := print_u64_spec (n / 10 ^ e)
  have hqle : n / 10 ^ e ≤ n := Nat.div_le_self _ _
  have hst : ∀ rest : List Char, (∀ c, rest.head? = some c → is_digit c = false) →
      strtoull (print_u64 (n / 10 ^ e) ++ rest) = ⟨n / 10 ^ e, rest, false⟩ := by
    intro rest hrest
    rw [strtoull_digits _ _ hne hdig hrest, hval, if_neg (by simp only [UINT64_MAX]; omega)]
  by_cases hz : n % 10 ^ e = 0
  · simp only [hz, if_true, List.append_nil]
    have hpad : fraction_pad e (n / 10 ^ e) = n := by
      rw [fraction_pad_exact _ _ (by omega)]; omega
    unfold scan_human_readable
    simp only [hst [' ', ' '] (by simp; decide)]
    simp [scan_suffix, List.dropWhile, hpad]
  · simp only [hz, if_false, List.append_assoc, List.cons_append]
    obtain ⟨num', h1, h2, h3⟩ := fraction_digits_text (e : Int) [' ', ' '] (by simp; decide) e
      (n % 10 ^ e) (n / 10 ^ e) 0 (Nat.mod_lt _ hpos) (by simp) (by omega)
    have hpad : fraction_pad (e - (frac_text e (n % 10 ^ e)).length) num' = n := by
      rw [fraction_pad_exact _ _ (by omega)]; omega
    have hcount : ((e : Int) - (0 + ((frac_text e (n % 10 ^ e)).length : Int))).toNat =
        e - (frac_text e (n % 10 ^ e)).length := by omega
    unfold scan_human_readable
    simp only [hst ('.' :: (frac_text e (n % 10 ^ e) ++ [' ', ' '])) (by simp; decide)]
    simp [scan_suffix, h1, hcount, List.dropWhile, hpad]

/-! ## Claims -/

/-- C1: raw round trip. For every unsigned 64 bit `n` and every `fraction`
between 0 and 19, `str_get_human_readable_u64` with `unit = NULL`,
`binary = false`, `raw = true` returns a text (the buffer holding at least 24
bytes), and `str_parse_human_readable_u64` with the same `fraction` and
`binary = false` returns 0 on that text and stores exactly `n`. -/
theorem raw_round_trip (out_len dst n : Nat) (fraction : Int) (hn : n ≤ UINT64_MAX)
    (hf0 : 0 ≤ fraction) (hf1 : fraction ≤ 19) (hlen : 24 ≤ out_len) :
    ∃ text, str_get_human_readable_u64 out_len n none fraction false true = Except.ok text ∧
      str_parse_human_readable_u64 dst text fraction false = (0, n) := by
  obtain ⟨e, rfl⟩ := Int.eq_ofNat_of_zero_le hf0
  have hn' : n < 2 ^ 64 := by simp only [UINT64_MAX] at hn; omega
  exact ⟨_, raw_encode out_len n e hn' (by omega) hlen, raw_decode dst n e false hn'⟩

/-- C1 at `n = 1205`, `fraction = 2`, a buffer of 48 bytes and `*dst = 5`. -/
theorem raw_round_trip_witness :
    (1205 ≤ UINT64_MAX ∧ (0 : Int) ≤ 2 ∧ (2 : Int) ≤ 19 ∧ 24 ≤ 48) ∧
    ∃ text, str_get_human_readable_u64 48 1205 none 2 false true = Except.ok text ∧
      str_parse_human_readable_u64 5 text 2 false = (0, 1205) :=
  ⟨by decide, raw_round_trip 48 5 1205 2 (by decide) (by decide) (by decide) (by decide)⟩

/-- C2: the signed encoder does not keep the sign. For `number = -120000`
(`unit = NULL`, `fraction = 0`, `binary = false`, `raw = false`, a buffer of
48 bytes) both the buffer and the returned string are `"120 k"`, the very text
`str_get_human_readable_u64` gives for 120000, where the claim and the doc
comment of the function promise `"-120 k"`. For `INT64_MIN` the sign is stored
in the buffer, yet the returned pointer is behind it. -/
theorem signed_encoding_drops_sign :
    str_get_human_readable_s64 48 (-120000) none 0 false false =
        Except.ok ⟨"120 k".toList, "120 k".toList⟩ ∧
      str_get_human_readable_u64 48 120000 none 0 false false = Except.ok "120 k".toList ∧
      str_get_human_readable_s64 48 INT64_MIN none 0 false true =
        Except.ok ⟨"-9223372036854775808  ".toList, "9223372036854775808  ".toList⟩ := by
  decide

/-- C3: suffix selection in binary mode stops at the digit assertion. The
number 2047 lies between `1024 ^ 1` and `1024 ^ 2`, so the claim expects the
text to start with 1 and to end in `" k"`; the encoder (`fraction = 0`,
`binary = true`, `raw = false`) computes `print = 1023 / 102 = 10` for the first
fractional digit and `assert (print < 10)` fails. The three examples of the
claim, `"1 k"` for 1024 in binary mode and for 1000 in decimal mode and
`"120 k"` for 120000, are what the encoder returns. -/
theorem binary_suffix_selection_aborts :
    1024 ^ 1 ≤ 2047 ∧ 2047 < 1024 ^ 2 ∧
      str_get_human_readable_u64 48 2047 none 0 true false = Except.error Fault.assertion ∧
      str_get_human_readable_u64 48 1024 none 0 true false = Except.ok "1 k".toList ∧
      str_get_human_readable_u64 48 1000 none 0 false false = Except.ok "1 k".toList ∧
      str_get_human_readable_u64 48 120000 none 0 false false = Except.ok "120 k".toList := by
  decide

/-- C4, as stated, fails: `str_parse_human_readable_u64` on `"1.5 k"` with
`fraction = 2` and `binary = false` does not return 0 with 1500 stored. -/
theorem decode_one_point_five_k_not_1500 :
    ¬ (str_parse_human_readable_u64 0 "1.5 k".toList 2 false = (0, 1500)) := by
  decide

/-- C4, amended: `str_parse_human_readable_u64` on `"1.5 k"` with
`fraction = 2` and `binary = false` returns 0 and stores 150000, that is
1.5 times 1000 in units of `10 ^ -fraction`. -/
theorem decode_one_point_five_k (dst : Nat) :
    str_parse_human_readable_u64 dst "1.5 k".toList 2 false = (0, 150000) := by
  rfl

/-- The loop `while (fraction-- > 0) multiplier *= 10;` computes
`multiplier * 10 ^ count` modulo `2 ^ 64`. -/
theorem fraction_scale_mod : ∀ (count m : Nat), m < 2 ^ 64 →
    fraction_scale count m = m * 10 ^ count % 2 ^ 64 := by
  intro count
  induction count with
  | zero => intro m h; rw [fraction_scale, Nat.pow_zero, Nat.mul_one, Nat.mod_eq_of_lt h]
  | succ k ih =>
    intro m _
    rw [fraction_scale, ih _ (Nat.mod_lt _ (by norm_num)), Nat.pow_succ, Nat.mod_mul_mod]
    congr 1; ring

/-- Up to 53 fractional places neither `multiplier` nor `multiplier * step`
wraps around to zero. -/
theorem scale_step_ne_zero (e : Nat) (he : e ≤ 53) (binary : Bool) :
    10 ^ e % 2 ^ 64 ≠ 0 ∧ 10 ^ e % 2 ^ 64 * (if binary then 1024 else 1000) % 2 ^ 64 ≠ 0 := by
  interval_cases e <;> cases binary <;> decide

/-- C5, as stated, fails: for 0 with `unit = NULL` the encoder does not return
the digit 0 and one space (it returns the digit and two spaces); with
`fraction = 64` in raw mode `multiplier` is `10 ^ 64 mod 2 ^ 64 = 0` and the
division faults; a unit of 48 characters is not appended whole to a buffer of
48 bytes. -/
theorem zero_is_not_digit_and_one_space :
    str_get_human_readable_u64 48 0 none 0 false false ≠ Except.ok "0 ".toList ∧
      str_get_human_readable_u64 48 0 none 64 false true = Except.error Fault.div_by_zero ∧
      str_get_human_readable_u64 48 0 (some (List.replicate 48 'x')) 0 false false ≠
        Except.ok ("0 ".toList ++ List.replicate 48 'x') := by
  decide

/-- C5, amended: for every `fraction` between 0 and 53, every value of the
`binary` and `raw` flags and a buffer of at least 4 bytes,
`str_get_human_readable_u64` renders 0 as the digit 0 followed by two spaces
(the separator and the blank first entry of `symbol`), and appends the unit,
when one is given, cut to the `out_len - 4` characters that fit. -/
theorem zero_rendering (out_len : Nat) (unit : Option (List Char)) (fraction : Int)
    (binary raw : Bool) (hf0 : 0 ≤ fraction) (hf1 : fraction ≤ 53) (hlen : 4 ≤ out_len) :
    str_get_human_readable_u64 out_len 0 unit fraction binary raw =
      Except.ok (['0', ' ', ' '] ++ (unit.getD []).take (out_len - 4)) := by
  obtain ⟨e, rfl⟩ := Int.eq_ofNat_of_zero_le hf0
  have hs := scale_step_ne_zero e (by omega) binary
  have hsc : fraction_scale e 1 = 10 ^ e % 2 ^ 64 := by
    rw [fraction_scale_mod e 1 (by norm_num)]; simp
  have hp : print_u64 0 = ['0'] := rfl
  have h1 : (1 : Nat) < out_len := by omega
  have h3 : (1 : Nat) + 2 < out_len := by omega
  unfold str_get_human_readable_u64 _get_human_readable_u64
  simp only [Int.toNat_ofNat, hsc, symbol, scale_loop, Nat.le_zero_eq, hs.2, and_false, if_false,
    hs.1, Nat.zero_div, hp, List.length_singleton, h1, not_true_eq_false, deref, List.headD_cons,
    ne_eq, fraction_loop, Nat.zero_mod, true_or, if_true, h3]
  cases unit with
  | none => simp
  | some u =>
    have : ¬ out_len = 0 := by omega
    by_cases hu : u = []
    · simp [strscat, hu]
    · have h4 : 3 < out_len := by omega
      simp [strscat, strscpy, hu, this, h4]
      rw [if_neg (by omega), Nat.sub_sub]

/-- C5, amended, for the unit `"bit/s"`, `fraction = 2`, binary mode and a buffer
of 48 bytes. -/
theorem zero_rendering_witness :
    ((0 : Int) ≤ 2 ∧ (2 : Int) ≤ 53 ∧ 4 ≤ 48) ∧
      str_get_human_readable_u64 48 0 (some "bit/s".toList) 2 true false =
        Except.ok (['0', ' ', ' '] ++ ((some "bit/s".toList).getD []).take (48 - 4)) :=
  ⟨by decide, zero_rendering 48 (some "bit/s".toList) 2 true false (by decide) (by decide)
    (by decide)⟩

/-- The `switch` runs at most six multiplications. -/
theorem iso_prefix_steps_le (c : Char) (k : Nat) (h : iso_prefix_steps c = some k) : k ≤ 6 := by
  unfold iso_prefix_steps at h
  split_ifs at h <;> simp at h <;> omega

/-- Up to six multiplications by 1000 or 1024 do not wrap around: `factor` is
the power of the step, positive and below `2 ^ 64`. -/
theorem iso_prefix_factor_pow (binary : Bool) (k : Nat) (hk : k ≤ 6) :
    iso_prefix_factor (if binary then 1024 else 1000) k 1 = (if binary then 1024 else 1000) ^ k ∧
      0 < (if binary then 1024 else 1000) ^ k ∧
      (if binary then 1024 else 1000) ^ k < 2 ^ 64 := by
  interval_cases k <;> cases binary <;> decide

/-- When the suffix check passes, `num` is unchanged and `factor` is a power of
the step. -/
theorem scan_suffix_factor (binary : Bool) (num : Nat) (next : List Char) (n factor : Nat)
    (h : scan_suffix binary num next = Scan.scaling n factor) :
    n = num ∧ ∃ k, k ≤ 6 ∧ factor = (if binary then 1024 else 1000) ^ k := by
  unfold scan_suffix at h
  split at h
  · injection h with h1 h2
    exact ⟨h1.symm, 0, by omega, by simp [← h2]⟩
  · simp only at h
    split at h
    · rename_i steps hs
      injection h with h1 h2
      have hk := iso_prefix_steps_le _ _ hs
      exact ⟨h1.symm, steps, hk, by rw [← h2, (iso_prefix_factor_pow binary steps hk).1]⟩
    · cases h
  · cases h

/-- Whenever the scaling step is reached, `factor` is a power of the step with
an exponent of at most six. -/
theorem scan_scaling_factor (hrn : List Char) (fraction : Int) (binary : Bool) (num factor : Nat)
    (h : scan_human_readable hrn fraction binary = Scan.scaling num factor) :
    ∃ k, k ≤ 6 ∧ factor = (if binary then 1024 else 1000) ^ k := by
  unfold scan_human_readable at h
  simp only at h
  split at h
  · cases h
  · split at h
    · cases h
    · exact (scan_suffix_factor _ _ _ _ _ h).2

/-- C6: overflow is reported as failure. `str_parse_human_readable_u64`
returns -1 (and leaves `*dst`) for every input whose leading digit run denotes
an integer above `UINT64_MAX`, in particular for `"18446744073709551615999"`;
and for every input that reaches the scaling step with the values `num` and
`factor`, the factor is positive, the function returns -1 exactly when
`num > UINT64_MAX / factor`, and otherwise it returns 0 and stores the product
`num * factor`, which is at most `UINT64_MAX` (no wrap-around). -/
theorem overflow_reported (dst : Nat) (fraction : Int) (binary : Bool) :
    (∀ digits rest : List Char, digits ≠ [] → (∀ c ∈ digits, is_digit c = true) →
        (∀ c, rest.head? = some c → is_digit c = false) →
        decimal_value 0 digits > UINT64_MAX →
        str_parse_human_readable_u64 dst (digits ++ rest) fraction binary = (-1, dst)) ∧
    str_parse_human_readable_u64 dst "18446744073709551615999".toList fraction binary
      = (-1, dst) ∧
    (∀ (hrn : List Char) (num factor : Nat),
        scan_human_readable hrn fraction binary = Scan.scaling num factor →
        0 < factor ∧
        ((str_parse_human_readable_u64 dst hrn fraction binary).1 = -1 ↔
          num > UINT64_MAX / factor) ∧
        (¬ num > UINT64_MAX / factor →
          str_parse_human_readable_u64 dst hrn fraction binary = (0, num * factor) ∧
          num * factor ≤ UINT64_MAX)) := by
  have part1 : ∀ digits rest : List Char, digits ≠ [] → (∀ c ∈ digits, is_digit c = true) →
        (∀ c, rest.head? = some c → is_digit c = false) →
        decimal_value 0 digits > UINT64_MAX →
        str_parse_human_readable_u64 dst (digits ++ rest) fraction binary = (-1, dst) := by
    intro digits rest hne hdig hrest hov
    simp [str_parse_human_readable_u64, scan_human_readable,
      strtoull_digits digits rest hne hdig hrest, hov]
  refine ⟨part1, ?_, ?_⟩
  · have := part1 "18446744073709551615999".toList [] (by decide) (by decide) (by simp)
      (by decide)
    simpa using this
  · intro hrn num factor h
    obtain ⟨k, hk, hf⟩ := scan_scaling_factor hrn fraction binary num factor h
    have hp : 0 < factor := hf ▸ (iso_prefix_factor_pow binary k hk).2.1
    refine ⟨hp, ?_, ?_⟩
    · by_cases hc : num > UINT64_MAX / factor <;>
        simp [str_parse_human_readable_u64, h, hc]
    · intro hc
      have hle : num * factor ≤ UINT64_MAX := (Nat.le_div_iff_mul_le hp).1 (not_lt.1 hc)
      have hlt : num * factor < 2 ^ 64 := by
        simp only [UINT64_MAX] at hle; omega
      simp only [str_parse_human_readable_u64, h, hc, if_false, Nat.mod_eq_of_lt hlt]
      exact ⟨trivial, hle⟩

/-- C6 at three inputs: a digit run above `UINT64_MAX` in front of `" k"`, the
text `"1.5 k"` (scaling step reached with 150 and 1000, product stored) and
`"18446744073709551615 k"` (scaling step reached, the product would wrap). -/
theorem overflow_reported_witness :
    str_parse_human_readable_u64 7 ("99999999999999999999".toList ++ " k".toList) 2 false
        = (-1, 7) ∧
      (str_parse_human_readable_u64 7 "1.5 k".toList 2 false = (0, 150 * 1000) ∧
        150 * 1000 ≤ UINT64_MAX) ∧
      ((str_parse_human_readable_u64 7 "18446744073709551615 k".toList 0 false).1 = -1 ↔
        18446744073709551615 > UINT64_MAX / 1000) :=
  ⟨(overflow_reported 7 2 false).1 "99999999999999999999".toList " k".toList (by decide)
      (by decide) (by simp; decide) (by decide),
    ((overflow_reported 7 2 false).2.2 "1.5 k".toList 150 1000 (by decide)).2.2 (by decide),
    ((overflow_reported 7 0 false).2.2 "18446744073709551615 k".toList 18446744073709551615 1000
      (by decide)).2.1⟩

/-- The digit loop of the fractional part reads `j` characters, all of them
digits, and never more than `fraction - frac` of them. -/
theorem fraction_digits_drop (fraction : Int) : ∀ (l : List Char) (num : Nat) (frac : Int),
    ∃ (j num' : Nat), fraction_digits fraction l num frac = (num', frac + j, l.drop j) ∧
      j ≤ l.length ∧ (∀ c ∈ l.take j, is_digit c = true) ∧ (j : Int) ≤ max 0 (fraction - frac) := by
  intro l
  induction l with
  | nil => intro num frac; exact ⟨0, num, by simp [fraction_digits], by simp, by simp, by simp⟩
  | cons c cs ih =>
    intro num frac
    by_cases hc : is_digit c = true ∧ frac < fraction
    · obtain ⟨j, num', h1, h2, h3, h4⟩ :=
        ih ((num * 10 % 2 ^ 64 + digit_value c) % 2 ^ 64) (frac + 1)
      refine ⟨j + 1, num', ?_, by simp; omega, ?_, ?_⟩
      · simp only [fraction_digits, hc, and_self, if_true, h1, List.drop_succ_cons]
        push_cast; simp only [Prod.mk.injEq, and_true, true_and]; omega
      · intro x hx
        simp only [List.take_succ_cons, List.mem_cons] at hx
        rcases hx with rfl | hx
        · exact hc.1
        · exact h3 x hx
      · have := hc.2; push_cast; omega
    · exact ⟨0, num, by simp [fraction_digits, hc], by simp, by simp, by simp⟩

/-- Skipping the spaces in front of a text that does not start with a space. -/
theorem dropWhile_spaces (k : Nat) (rem : List Char) (h : ∀ c, rem.head? = some c → c ≠ ' ') :
    (List.replicate k ' ' ++ rem).dropWhile (fun x => decide (x = ' ')) = rem := by
  induction k with
  | zero =>
    cases rem with
    | nil => rfl
    | cons c cs => simp [List.dropWhile, h c rfl]
  | succ k ih => simpa [List.replicate_succ, List.dropWhile] using ih

/-- A digit is neither a space nor a suffix character. -/
theorem is_digit_not_suffix (c : Char) (h : is_digit c = true) :
    c ≠ ' ' ∧ iso_prefix_steps c = none := by
  rw [is_digit_iff] at h
  have h1 : c ≠ 'E' := by rintro rfl; revert h; decide
  have h2 : c ≠ 'P' := by rintro rfl; revert h; decide
  have h3 : c ≠ 'T' := by rintro rfl; revert h; decide
  have h4 : c ≠ 'G' := by rintro rfl; revert h; decide
  have h5 : c ≠ 'M' := by rintro rfl; revert h; decide
  have h6 : c ≠ 'k' := by rintro rfl; revert h; decide
  have h7 : c ≠ ' ' := by rintro rfl; revert h; decide
  exact ⟨h7, by simp [iso_prefix_steps, h1, h2, h3, h4, h5, h6, h7]⟩

/-- A text that starts with a digit fails the suffix check. -/
theorem scan_suffix_digit (binary : Bool) (num : Nat) (d : Char) (l : List Char)
    (hd : is_digit d = true) : scan_suffix binary num (d :: l) = Scan.failed := by
  have h := is_digit_not_suffix d hd
  cases l with
  | nil => simp [scan_suffix, List.dropWhile, h.1, h.2]
  | cons x xs => simp [scan_suffix, List.dropWhile, h.1]

/-- A non-empty text behind the spaces that is not one of the six suffix
characters fails the suffix check. -/
theorem scan_suffix_rejects (binary : Bool) (num k : Nat) (rem : List Char) (hne : rem ≠ [])
    (hsp : ∀ c, rem.head? = some c → c ≠ ' ')
    (hbad : ¬ ∃ c, rem = [c] ∧ c ∈ ['E', 'P', 'T', 'G', 'M', 'k']) :
    scan_suffix binary num (List.replicate k ' ' ++ rem) = Scan.failed := by
  unfold scan_suffix
  rw [dropWhile_spaces k rem hsp]
  match rem, hne, hsp, hbad with
  | [c], _, hsp, hbad =>
    have hc := hsp c rfl
    have hs : iso_prefix_steps c = none := by
      simp only [List.mem_cons, List.mem_singleton, List.cons.injEq, and_true, not_exists,
        not_and, List.not_mem_nil, or_false] at hbad
      have hb := hbad c rfl
      simp only [not_or] at hb
      simp [iso_prefix_steps, hb.1, hb.2.1, hb.2.2.1, hb.2.2.2.1, hb.2.2.2.2.1, hb.2.2.2.2.2, hc]
    simp [hs]
  | _ :: _ :: _, _, _, _ => rfl

/-- The scan behind a successful `strtoull` that did not reach the end of the
string. -/
theorem scan_of_next (hrn : List Char) (fraction : Int) (binary : Bool) (c : Char)
    (cs : List Char) (he : (strtoull hrn).erange = false) (hn : (strtoull hrn).next = c :: cs) :
    scan_human_readable hrn fraction binary =
      if c = '.' then
        scan_suffix binary
          (fraction_pad (fraction - (fraction_digits fraction cs (strtoull hrn).value 0).2.1).toNat
            (fraction_digits fraction cs (strtoull hrn).value 0).1)
          (fraction_digits fraction cs (strtoull hrn).value 0).2.2
      else scan_suffix binary (fraction_pad fraction.toNat (strtoull hrn).value) (c :: cs) := by
  unfold scan_human_readable
  simp only [he, hn, Bool.false_eq_true, if_false]
  by_cases hc : c = '.' <;> simp [hc]

/-- When the scan fails, the parser returns -1 and leaves `*dst`. -/
theorem parse_of_scan_failed (dst : Nat) (hrn : List Char) (fraction : Int) (binary : Bool)
    (h : (strtoull hrn).erange = false → scan_human_readable hrn fraction binary = Scan.failed) :
    str_parse_human_readable_u64 dst hrn fraction binary = (-1, dst) := by
  by_cases he : (strtoull hrn).erange = false
  · simp [str_parse_human_readable_u64, h he]
  · simp [str_parse_human_readable_u64, scan_human_readable, he]

/-- In front of a text that does not start with a digit the digit loop stops
inside the digit run or at its end. -/
theorem fraction_digits_stops (fraction : Int) (ds tail : List Char) (num : Nat)
    (htail : ∀ c, tail.head? = some c → is_digit c = false) :
    ∃ (j num' : Nat), fraction_digits fraction (ds ++ tail) num 0 = (num', (j : Int), ds.drop j ++ tail) ∧
      j ≤ ds.length := by
  obtain ⟨j, num', h1, h2, h3, _⟩ := fraction_digits_drop fraction (ds ++ tail) num 0
  have hj : j ≤ ds.length := by
    by_contra hlt
    push_neg at hlt
    cases tail with
    | nil => simp at h2; omega
    | cons t ts =>
      have ht := htail t rfl
      have hmem : t ∈ List.take j (ds ++ t :: ts) := by
        rw [List.take_append_eq_append_take]
        apply List.mem_append_right
        obtain ⟨m, hm⟩ : ∃ m, j - ds.length = m + 1 := ⟨j - ds.length - 1, by omega⟩
        rw [hm, List.take_succ_cons]
        exact List.mem_cons_self _ _
      rw [h3 t hmem] at ht
      cases ht
  refine ⟨j, num', ?_, hj⟩
  rw [h1, List.drop_append_of_le_length hj]
  simp

/-- C7: an invalid suffix is rejected. Let the text behind the leading
integer (where `strtoull` stops) consist of an optional fractional part `fp`
(a `'.'` and digits), `k` spaces and a rest `rem` that is not empty, does not
continue the run in front of it, and is not exactly one character of `E`, `P`,
`T`, `G`, `M`, `k`. Then `str_parse_human_readable_u64` returns -1 and leaves
`*dst`, for every `fraction` and both values of `binary`; in particular
`"1 Ki"` is rejected. -/
theorem invalid_suffix_rejected (dst : Nat) (fraction : Int) (binary : Bool) :
    (∀ (hrn fp rem : List Char) (k : Nat),
        (strtoull hrn).next = fp ++ List.replicate k ' ' ++ rem →
        (fp = [] ∨ ∃ ds, fp = '.' :: ds ∧ ∀ c ∈ ds, is_digit c = true) →
        rem ≠ [] →
        (∀ c, rem.head? = some c →
          c ≠ ' ' ∧ (k = 0 → (fp = [] → c ≠ '.') ∧ (fp ≠ [] → is_digit c = false))) →
        (¬ ∃ c, rem = [c] ∧ c ∈ ['E', 'P', 'T', 'G', 'M', 'k']) →
        str_parse_human_readable_u64 dst hrn fraction binary = (-1, dst)) ∧
    str_parse_human_readable_u64 dst "1 Ki".toList fraction binary = (-1, dst) := by
  have main : ∀ (hrn fp rem : List Char) (k : Nat),
        (strtoull hrn).next = fp ++ List.replicate k ' ' ++ rem →
        (fp = [] ∨ ∃ ds, fp = '.' :: ds ∧ ∀ c ∈ ds, is_digit c = true) →
        rem ≠ [] →
        (∀ c, rem.head? = some c →
          c ≠ ' ' ∧ (k = 0 → (fp = [] → c ≠ '.') ∧ (fp ≠ [] → is_digit c = false))) →
        (¬ ∃ c, rem = [c] ∧ c ∈ ['E', 'P', 'T', 'G', 'M', 'k']) →
        str_parse_human_readable_u64 dst hrn fraction binary = (-1, dst) := by
    intro hrn fp rem k hnext hfp hne hhead hbad
    apply parse_of_scan_failed
    intro he
    have hsp : ∀ c, rem.head? = some c → c ≠ ' ' := fun c hc => (hhead c hc).1
    rcases hfp with rfl | ⟨ds, rfl, hds⟩
    · -- no fractional part
      simp only [List.nil_append] at hnext
      obtain ⟨c, cs, hcs⟩ : ∃ c cs, List.replicate k ' ' ++ rem = c :: cs := by
        cases h : List.replicate k ' ' ++ rem with
        | nil => simp [hne] at h
        | cons c cs => exact ⟨c, cs, rfl⟩
      have hdot : c ≠ '.' := by
        cases k with
        | zero =>
          simp only [List.replicate_zero, List.nil_append] at hcs
          exact ((hhead c (by rw [hcs]; rfl)).2 rfl).1 rfl
        | succ k =>
          simp only [List.replicate_succ, List.cons_append, List.cons.injEq] at hcs
          rw [← hcs.1]; decide
      rw [scan_of_next hrn fraction binary c cs he (hnext.trans hcs), if_neg hdot, ← hcs]
      exact scan_suffix_rejects binary _ k rem hne hsp hbad
    · -- fractional part, read up to `fraction` digits
      simp only [List.cons_append, List.append_assoc] at hnext
      have htail : ∀ c, (List.replicate k ' ' ++ rem).head? = some c → is_digit c = false := by
        intro c hc
        cases k with
        | zero =>
          simp only [List.replicate_zero, List.nil_append] at hc
          exact ((hhead c hc).2 rfl).2 (by simp)
        | succ k =>
          simp only [List.replicate_succ, List.cons_append, List.head?_cons,
            Option.some.injEq] at hc
          rw [← hc]; decide
      obtain ⟨j, num', h1, _⟩ := fraction_digits_stops fraction ds
        (List.replicate k ' ' ++ rem) (strtoull hrn).value htail
      rw [scan_of_next hrn fraction binary '.' _ he hnext, if_pos rfl, h1]
      simp only
      cases hd : List.drop j ds with
      | nil => simpa using scan_suffix_rejects binary _ k rem hne hsp hbad
      | cons d ds' =>
        have hdd : is_digit d = true :=
          hds d (List.mem_of_mem_drop (by rw [hd]; exact List.mem_cons_self _ _))
        simpa using scan_suffix_digit binary _ d _ hdd
  refine ⟨main, ?_⟩
  exact main "1 Ki".toList [] "Ki".toList 1 (by decide) (Or.inl rfl) (by decide)
    (by simp) (by simp)

/-- C7 at the input `"12.5  kB"` with `fraction = 2` in binary mode. -/
theorem invalid_suffix_rejected_witness :
    str_parse_human_readable_u64 7 "12.5  kB".toList 2 true = (-1, 7) :=
  (invalid_suffix_rejected 7 2 true).1 "12.5  kB".toList ".5".toList "kB".toList 2 (by decide)
    (Or.inr ⟨"5".toList, rfl, by decide⟩) (by decide) (by simp) (by simp)

/-- C8, as stated, fails: with `fraction = 2` the input `"1.234"` is rejected
with -1 whereas `"1.23"`, its fractional part cut to two digits, is accepted
and stores 123. -/
theorem extra_fraction_digits_fail :
    str_parse_human_readable_u64 0 "1.234".toList 2 false = (-1, 0) ∧
      str_parse_human_readable_u64 0 "1.23".toList 2 false = (0, 123) := by
  decide

/-- C8, amended: extra fractional digits are an error. For every
`fraction >= 0` and every input in which the leading integer is followed by
`'.'` and more than `fraction` digits (and anything behind them),
`str_parse_human_readable_u64` returns -1 and leaves `*dst`: the digit loop
stops at the budget and the digits left over fail the suffix check. -/
theorem extra_fraction_digits_rejected (dst : Nat) (hrn ds rest : List Char) (fraction : Int)
    (binary : Bool) (hnext : (strtoull hrn).next = '.' :: ds ++ rest)
    (hds : ∀ c ∈ ds, is_digit c = true) (hf0 : 0 ≤ fraction) (hmore : fraction < ds.length) :
    str_parse_human_readable_u64 dst hrn fraction binary = (-1, dst) := by
  apply parse_of_scan_failed
  intro he
  obtain ⟨j, num', h1, h2, h3, h4⟩ := fraction_digits_drop fraction (ds ++ rest) (strtoull hrn).value 0
  have hj : j < ds.length := by
    omega
  rw [scan_of_next hrn fraction binary '.' _ he (by simpa using hnext), if_pos rfl, h1]
  simp only
  rw [List.drop_append_of_le_length (le_of_lt hj)]
  cases hd : List.drop j ds with
  | nil =>
    have := congrArg List.length hd
    simp at this; omega
  | cons d ds' =>
    have hdd : is_digit d = true :=
      hds d (List.mem_of_mem_drop (by rw [hd]; exact List.mem_cons_self _ _))
    simpa using scan_suffix_digit binary _ d _ hdd

/-- C8, amended, at the input `"1.234 k"` with `fraction = 2`. -/
theorem extra_fraction_digits_rejected_witness :
    ((strtoull "1.234 k".toList).next = '.' :: "234".toList ++ " k".toList ∧
      (∀ c ∈ "234".toList, is_digit c = true) ∧ (0 : Int) ≤ 2 ∧
      (2 : Int) < ("234".toList.length : Int)) ∧
      str_parse_human_readable_u64 7 "1.234 k".toList 2 false = (-1, 7) :=
  ⟨by decide, extra_fraction_digits_rejected 7 "1.234 k".toList "234".toList " k".toList 2 false
    (by decide) (by decide) (by decide) (by decide)⟩

/-- C9: no partial result on failure. Whenever
`str_parse_human_readable_u64` returns -1 the content of `*dst` is the one
from before the call, and whenever `str_parse_human_readable_s64` returns -1
its destination is unchanged as well. -/
theorem no_partial_result (dst : Nat) (sdst : Int) (hrn : List Char) (fraction : Int)
    (binary : Bool) :
    ((str_parse_human_readable_u64 dst hrn fraction binary).1 = -1 →
        (str_parse_human_readable_u64 dst hrn fraction binary).2 = dst) ∧
      ((str_parse_human_readable_s64 sdst hrn fraction binary).1 = -1 →
        (str_parse_human_readable_s64 sdst hrn fraction binary).2 = sdst) := by
  constructor
  · unfold str_parse_human_readable_u64
    cases scan_human_readable hrn fraction binary with
    | failed => intro _; rfl
    | plain num => intro h; simp at h
    | scaling num factor =>
      by_cases hc : num > UINT64_MAX / factor
      · intro _; simp [hc]
      · intro h; simp [hc] at h
  · unfold str_parse_human_readable_s64
    simp only
    generalize str_parse_human_readable_u64 0
      (if hrn.head? = some '-' then hrn.tail else hrn) fraction binary = r
    by_cases h0 : r.1 = 0
    · intro h
      by_cases hneg : hrn.head? = some '-' <;> simp [h0, hneg] at h
    · intro _
      simp [h0]

/-- C9 at the rejected inputs `"1 Ki"` and `"-1 Ki"`. -/
theorem no_partial_result_witness :
    ((str_parse_human_readable_u64 7 "1 Ki".toList 2 false).1 = -1 ∧
      (str_parse_human_readable_s64 (-3) "-1 Ki".toList 2 false).1 = -1) ∧
    (str_parse_human_readable_u64 7 "1 Ki".toList 2 false).2 = 7 ∧
      (str_parse_human_readable_s64 (-3) "-1 Ki".toList 2 false).2 = -3 :=
  ⟨by decide, (no_partial_result 7 (-3) "1 Ki".toList 2 false).1 (by decide),
    (no_partial_result 7 (-3) "-1 Ki".toList 2 false).2 (by decide)⟩

/-- C10: `INT64_MIN` round trip. With a buffer of at least 25 bytes
`str_get_human_readable_s64 (INT64_MIN, unit = NULL, fraction = 0,
binary = false, raw = true)` returns normally, and
`str_parse_human_readable_s64` with `fraction = 0` and `binary = false` returns
0 and stores `INT64_MIN` both for the string at the returned pointer
(`"9223372036854775808  "`, converted to `int64_t` modulo `2 ^ 64`) and for the
content of the buffer (the same text behind a `'-'`, negated modulo
`2 ^ 64`). -/
theorem int64_min_round_trip (out_len : Nat) (dst : Int) (hlen : 25 ≤ out_len) :
    ∃ t, str_get_human_readable_s64 out_len INT64_MIN none 0 false true = Except.ok t ∧
      str_parse_human_readable_s64 dst t.ret 0 false = (0, INT64_MIN) ∧
      str_parse_human_readable_s64 dst t.buf 0 false = (0, INT64_MIN) := by
  have henc := raw_encode (out_len - 1) (2 ^ 63) 0 (by norm_num) (by omega) (by omega)
  have htext : print_u64 (2 ^ 63 / 10 ^ 0) ++
      (if 2 ^ 63 % 10 ^ 0 = 0 then [] else '.' :: frac_text 0 (2 ^ 63 % 10 ^ 0)) ++ [' ', ' '] =
      "9223372036854775808  ".toList := by decide
  rw [htext] at henc
  have hu : str_parse_human_readable_u64 0 "9223372036854775808  ".toList 0 false =
      (0, 2 ^ 63) := by decide
  refine ⟨⟨'-' :: "9223372036854775808  ".toList, "9223372036854775808  ".toList⟩, ?_, ?_, ?_⟩
  · have h0 : ¬ out_len = 0 := by omega
    simp only [str_get_human_readable_s64, if_true, h0, if_false]
    rw [show ((0 : Nat) : Int) = 0 from rfl] at henc
    rw [henc]
  · have hh : ("9223372036854775808  ".toList).head? ≠ some '-' := by decide
    simp only [str_parse_human_readable_s64, hh, if_false, hu, if_true]
    decide
  · have hh : ('-' :: "9223372036854775808  ".toList).head? = some '-' := rfl
    simp only [str_parse_human_readable_s64, hh, if_true, List.tail_cons, hu]
    decide

/-- C10 for a buffer of 48 bytes and `*dst = 17` before the call. -/
theorem int64_min_round_trip_witness :
    25 ≤ 48 ∧ ∃ t, str_get_human_readable_s64 48 INT64_MIN none 0 false true = Except.ok t ∧
      str_parse_human_readable_s64 17 t.ret 0 false = (0, INT64_MIN) ∧
      str_parse_human_readable_s64 17 t.buf 0 false = (0, INT64_MIN) :=
  ⟨by decide, int64_min_round_trip 48 17 (by decide)⟩

/-! ## Further properties of the encoder -/

/-- The digit loop does not use up `fuel + 1` iterations when `multiplier` is
below `10 ^ fuel`: the multiplier is divided by 10 in every iteration and a
multiplier of 0 ends the loop with a division fault. -/
theorem fraction_loop_fuel (out_len : Nat) (fuel : Nat) : ∀ (n multiplier : Nat) (fraction : Int)
    (out : List Char) (idx : Nat), multiplier < 10 ^ fuel →
    fraction_loop out_len (fuel + 1) n multiplier fraction out idx ≠ Except.error Fault.fuel := by
  induction fuel with
  | zero =>
    intro n m fr out idx hm
    have : m = 0 := by simpa using hm
    simp [fraction_loop, this]
  | succ k ih =>
    intro n m fr out idx hm
    rw [fraction_loop]
    have hdiv : m / 10 < 10 ^ k := by
      rw [Nat.div_lt_iff_lt_mul (by decide), ← Nat.pow_succ]; exact hm
    split_ifs <;> first | exact ih _ _ _ _ _ hdiv | simp

/-- The multiplier stays a 64 bit value in the suffix loop. -/
theorem scale_loop_lt (raw : Bool) (number step : Nat) : ∀ (p : List Char) (m : Nat),
    m < 2 ^ 64 → (scale_loop raw number step p m).1 < 2 ^ 64 := by
  intro p
  induction p with
  | nil => intro m hm; simpa [scale_loop] using hm
  | cons c cs ih =>
    intro m hm
    rw [scale_loop]
    split_ifs
    · exact ih _ (Nat.mod_lt _ (by norm_num))
    · exact hm

/-- The iteration bound 21 of the embedding is never reached: the encoder
returns a text or stops with one of the faults of the source. -/
theorem encoder_fuel_suffices (out_len number : Nat) (unit : Option (List Char))
    (fraction : Int) (binary raw : Bool) :
    _get_human_readable_u64 out_len number unit fraction binary raw ≠ Except.error Fault.fuel := by
  have h1 : fraction_scale fraction.toNat 1 < 2 ^ 64 := by
    rw [fraction_scale_mod _ 1 (by norm_num)]; exact Nat.mod_lt _ (by norm_num)
  have h2 := scale_loop_lt raw number (if binary then 1024 else 1000) symbol _ h1
  have h3 := fun n fr out idx => fraction_loop_fuel out_len 20 n
    (scale_loop raw number (if binary then 1024 else 1000) symbol
      (fraction_scale fraction.toNat 1)).1 fr out idx (lt_trans h2 (by norm_num))
  unfold _get_human_readable_u64
  simp only
  generalize (if binary = true then 1024 else 1000) = step at h2 h3 ⊢
  generalize scale_loop raw number step symbol (fraction_scale fraction.toNat 1) = sc at h2 h3 ⊢
  by_cases hm : sc.1 = 0
  · simp [hm]
  · rw [if_neg hm]
    by_cases hw : (print_u64 (number / sc.1)).length < out_len
    · rw [if_neg (not_not.2 hw)]
      generalize hfl : fraction_loop out_len 21 number sc.1
        (if deref sc.2 ≠ ' ' then 3 else min fraction 0 - 1)
        (print_u64 (number / sc.1) ++ ['.']) (print_u64 (number / sc.1)).length = res
      cases res with
      | error e =>
        intro hc
        simp only [Except.error.injEq] at hc
        subst hc
        exact h3 _ _ _ _ hfl
      | ok p =>
        obtain ⟨o, i⟩ := p
        simp only
        split_ifs <;> cases unit <;> simp
    · simp [hw]

/-- With a power of ten as multiplier the digit loop does not fault: it writes
at most `d` digits, where `d` bounds the exponent or the digit budget
`fraction`, and `idx` ends between its start value and the end of the text. -/
theorem fraction_loop_pow10_ok (out_len : Nat) (e : Nat) : ∀ (fuel n : Nat) (fr : Int)
    (out : List Char) (idx d : Nat), e < fuel → (e ≤ d ∨ (0 ≤ fr ∧ fr ≤ d)) →
    out.length + d ≤ out_len → idx ≤ out.length →
    ∃ (ds : List Char) (idx' : Nat),
      fraction_loop out_len fuel n (10 ^ e) fr out idx = Except.ok (out ++ ds, idx') ∧
      idx ≤ idx' ∧ idx' ≤ out.length + ds.length ∧ ds.length ≤ d ∧ ds.length ≤ e ∧
      (∀ c ∈ ds, is_digit c = true) := by
  induction e with
  | zero =>
    intro fuel n fr out idx d hf _ _ hidx
    obtain ⟨k, rfl⟩ : ∃ k, fuel = k + 1 := ⟨fuel - 1, by omega⟩
    exact ⟨[], idx, by simp [fraction_loop, Nat.mod_one], le_refl _, by simpa using hidx,
      by simp, by simp, by simp⟩
  | succ e ih =>
    intro fuel n fr out idx d hf hd hlen hidx
    obtain ⟨k, rfl⟩ : ∃ k, fuel = k + 1 := ⟨fuel - 1, by omega⟩
    have hpos : 0 < 10 ^ e := Nat.pow_pos (by decide)
    have hm : 10 ^ (e + 1) / 10 = 10 ^ e := by
      rw [Nat.pow_succ]; exact Nat.mul_div_cancel _ (by decide)
    have hm0 : 10 ^ (e + 1) ≠ 0 := (Nat.pow_pos (by decide)).ne'
    have hlt : n % 10 ^ (e + 1) < 10 ^ (e + 1) := Nat.mod_lt _ (Nat.pow_pos (by decide))
    have hdg : n % 10 ^ (e + 1) / 10 ^ e < 10 := by
      rw [Nat.div_lt_iff_lt_mul hpos, Nat.mul_comm, ← Nat.pow_succ]; exact hlt
    by_cases hz : n % 10 ^ (e + 1) = 0 ∨ fr = 0
    · exact ⟨[], idx, by simp [fraction_loop, hz], le_refl _, by simpa using hidx,
        by simp, by simp, by simp⟩
    · have hfr : fr ≠ 0 := fun h => hz (Or.inr h)
      have hol : out.length < out_len := by omega
      have hidx2 : (if n % 10 ^ (e + 1) / 10 ^ e ≠ 0 then out.length + 1 else idx) ≤
          (out ++ [Char.ofNat ('0'.toNat + n % 10 ^ (e + 1) / 10 ^ e)]).length := by
        rw [List.length_append, List.length_singleton]
        split_ifs <;> omega
      obtain ⟨ds, idx', h1, h2, h3, h4, h4', h5⟩ := ih k (n % 10 ^ (e + 1)) (fr - 1)
        (out ++ [Char.ofNat ('0'.toNat + n % 10 ^ (e + 1) / 10 ^ e)])
        (if n % 10 ^ (e + 1) / 10 ^ e ≠ 0 then out.length + 1 else idx) (d - 1)
        (by omega) (by omega)
        (by rw [List.length_append, List.length_singleton]; omega) hidx2
      refine ⟨Char.ofNat ('0'.toNat + n % 10 ^ (e + 1) / 10 ^ e) :: ds, idx', ?_, ?_, ?_, ?_,
        ?_, ?_⟩
      · rw [fraction_loop]
        simp only [hm0, if_false, hz, hm, hpos.ne', hdg, not_true_eq_false, hol, h1,
          List.append_assoc, List.singleton_append]
      · split_ifs at h2 <;> omega
      · rw [List.length_append, List.length_singleton] at h3
        rw [List.length_cons]; omega
      · rw [List.length_cons]; omega
      · rw [List.length_cons]; omega
      · intro c hc
        rcases List.mem_cons.1 hc with rfl | hc
        · exact (digit_char_facts _ hdg).1
        · exact h5 c hc

/-- Suffix selection for `fraction = 0`: for `step ^ k <= n < step ^ (k + 1)`
and `k <= 5` the suffix loop ends with `multiplier = step ^ k` at the `k`-th
character of `symbol`. -/
theorem scale_loop_select (binary : Bool) (n k : Nat) (hk : k ≤ 5)
    (hlo : k = 0 ∨ (if binary then 1024 else 1000) ^ k ≤ n)
    (hhi : n < (if binary then 1024 else 1000) ^ (k + 1)) :
    scale_loop false n (if binary then 1024 else 1000) symbol 1 =
      ((if binary then 1024 else 1000) ^ k, symbol.drop k) := by
  cases binary <;> interval_cases k <;> simp at hlo hhi <;>
    simp only [scale_loop, symbol, Bool.false_eq_true, if_false, true_and, ge_iff_le] <;>
    norm_num <;> split_ifs <;> first | rfl | omega

/-- Suffix selection in decimal mode (the part of C3 the encoder satisfies): for
`k <= 5` and `1000 ^ k <= n < 1000 ^ (k + 1)` (`n < 1000` for `k = 0`) the
encoder with `fraction = 0`, `raw = false` and `unit = NULL` prints the
integer part `n / 1000 ^ k`, which is below 1000, then nothing or a `'.'` with
at most three digits, then a space and the `k`-th character of `symbol`. -/
theorem decimal_suffix_selection (out_len n k : Nat) (hk : k ≤ 5)
    (hlo : k = 0 ∨ 1000 ^ k ≤ n) (hhi : n < 1000 ^ (k + 1)) (hlen : 10 ≤ out_len) :
    ∃ frac, str_get_human_readable_u64 out_len n none 0 false false =
        Except.ok (print_u64 (n / 1000 ^ k) ++ frac ++ [' ', symbol.getD k ' ']) ∧
      n / 1000 ^ k < 1000 ∧
      (frac = [] ∨ ∃ ds, frac = '.' :: ds ∧ ds.length ≤ 3 ∧ ∀ c ∈ ds, is_digit c = true) := by
  have hsel := scale_loop_select false n k hk hlo hhi
  simp only [Bool.false_eq_true, if_false] at hsel
  have hpos : 0 < 1000 ^ k := Nat.pow_pos (by decide)
  have hq : n / 1000 ^ k < 1000 := by
    rw [Nat.div_lt_iff_lt_mul hpos, Nat.mul_comm, ← Nat.pow_succ]; exact hhi
  have hwl := print_u64_length (n / 1000 ^ k) 3 (by decide) (lt_of_lt_of_le hq (by norm_num))
  have hp10 : (1000 : Nat) ^ k = 10 ^ (3 * k) := by rw [Nat.pow_mul]
  obtain ⟨fr, hfrdef⟩ : ∃ fr : Int,
      fr = if deref (symbol.drop k) ≠ ' ' then (3 : Int) else min 0 0 - 1 := ⟨_, rfl⟩
  have hfr : k = 0 ∨ fr = 3 := by
    rw [hfrdef]; interval_cases k <;> simp [symbol, deref]
  obtain ⟨ds, idx', h1, h2, h3, h4, _, h5⟩ := fraction_loop_pow10_ok out_len (3 * k) 21 n fr
    (print_u64 (n / 1000 ^ k) ++ ['.']) (print_u64 (n / 1000 ^ k)).length 3 (by omega)
    (by rcases hfr with rfl | h
        · exact Or.inl (by omega)
        · rw [h]; exact Or.inr ⟨by norm_num, by norm_num⟩)
    (by simp only [List.length_append, List.length_singleton]; omega) (by simp)
  rw [List.length_append, List.length_singleton] at h3
  rw [← hp10] at h1
  have hsym : List.take 1 (symbol.drop k) = [symbol.getD k ' '] := by
    interval_cases k <;> rfl
  refine ⟨List.take (idx' - (print_u64 (n / 1000 ^ k)).length) ('.' :: ds), ?_, hq, ?_⟩
  · unfold str_get_human_readable_u64 _get_human_readable_u64
    simp only [Int.toNat_zero, fraction_scale, Bool.false_eq_true, if_false, hsel, hpos.ne']
    rw [if_neg (by omega), ← hfrdef, h1]
    simp only
    rw [if_neg (by omega), hsym, List.append_assoc (print_u64 (n / 1000 ^ k)),
      List.take_append_eq_append_take, List.take_of_length_le h2]
    simp
  · by_cases hi : idx' - (print_u64 (n / 1000 ^ k)).length = 0
    · left; rw [hi]; rfl
    · right
      obtain ⟨m, hm⟩ : ∃ m, idx' - (print_u64 (n / 1000 ^ k)).length = m + 1 :=
        ⟨idx' - (print_u64 (n / 1000 ^ k)).length - 1, by omega⟩
      refine ⟨List.take m ds, by rw [hm, List.take_succ_cons], ?_, ?_⟩
      · rw [List.length_take]; omega
      · intro c hc
        exact h5 c (List.mem_of_mem_take hc)

/-- For every negative number above `INT64_MIN` the signed encoder leaves and
returns exactly the text of the unsigned encoder for the absolute value: no
`'-'` is stored. -/
theorem signed_negative_text (out_len : Nat) (number : Int) (unit : Option (List Char))
    (fraction : Int) (binary raw : Bool) (hmin : INT64_MIN < number) (hneg : number < 0) :
    str_get_human_readable_s64 out_len number unit fraction binary raw =
      match str_get_human_readable_u64 out_len (-number).toNat unit fraction binary raw with
      | Except.error e => Except.error e
      | Except.ok s => Except.ok ⟨s, s⟩ := by
  have h1 : number ≠ INT64_MIN := ne_of_gt hmin
  have h2 : to_uint64 (-number) = (-number).toNat := by
    simp only [INT64_MIN] at hmin
    simp only [to_uint64]
    congr 1
    exact Int.emod_eq_of_lt (by omega) (by omega)
  simp only [str_get_human_readable_s64, h1, if_false, hneg, if_true, h2,
    str_get_human_readable_u64]

/-! ## Lemmas for the remaining claims -/

/-- The value of a digit run that continues `acc` is `acc` shifted by the
length of the run plus the value of the run. -/
theorem decimal_value_shift (cs : List Char) : ∀ acc : Nat,
    decimal_value acc cs = acc * 10 ^ cs.length + decimal_value 0 cs := by
  induction cs with
  | nil => intro acc; simp [decimal_value]
  | cons c cs ih =>
    intro acc
    have h1 : decimal_value acc (c :: cs) = decimal_value (acc * 10 + digit_value c) cs := rfl
    have h2 : decimal_value 0 (c :: cs) = decimal_value (0 * 10 + digit_value c) cs := rfl
    rw [h1, h2, ih (acc * 10 + digit_value c), ih (0 * 10 + digit_value c), List.length_cons,
      Nat.pow_succ]
    ring

/-- Reading further digits does not lower the value. -/
theorem decimal_value_ge (cs : List Char) (acc : Nat) : acc ≤ decimal_value acc cs := by
  rw [decimal_value_shift]
  exact le_trans (Nat.le_mul_of_pos_right _ (Nat.pow_pos (by decide))) (Nat.le_add_right _ _)

/-- The digit loop of the decoder on a run of digits within the budget, in front
of a text that does not start with a digit: the whole run is read and, as long
as the value stays a 64 bit value, nothing wraps. -/
theorem fraction_digits_run (fraction : Int) (tail : List Char)
    (htail : ∀ c, tail.head? = some c → is_digit c = false) (ds : List Char) :
    ∀ (num : Nat) (frac : Int), (∀ c ∈ ds, is_digit c = true) → frac + ds.length ≤ fraction →
      decimal_value num ds < 2 ^ 64 →
      fraction_digits fraction (ds ++ tail) num frac =
        (decimal_value num ds, frac + ds.length, tail) := by
  induction ds with
  | nil =>
    intro num frac _ _ _
    cases tail with
    | nil => simp [fraction_digits, decimal_value]
    | cons c cs => simp [fraction_digits, decimal_value, htail c rfl]
  | cons c cs ih =>
    intro num frac hds hfrac hv
    have hc := hds c (List.mem_cons_self _ _)
    have hstep : decimal_value num (c :: cs) = decimal_value (num * 10 + digit_value c) cs := rfl
    rw [hstep] at hv ⊢
    have hge := decimal_value_ge cs (num * 10 + digit_value c)
    have hfl : frac < fraction := by
      simp only [List.length_cons] at hfrac; push_cast at hfrac; omega
    have hnum : (num * 10 % 2 ^ 64 + digit_value c) % 2 ^ 64 = num * 10 + digit_value c := by
      rw [Nat.mod_eq_of_lt (by omega : num * 10 < 2 ^ 64), Nat.mod_eq_of_lt (by omega)]
    have := ih (num * 10 + digit_value c) (frac + 1)
      (fun x hx => hds x (List.mem_cons_of_mem _ hx))
      (by simp only [List.length_cons] at hfrac; push_cast at hfrac ⊢; omega) hv
    simp only [List.cons_append, fraction_digits, hc, hfl, and_self, if_true, hnum, this,
      List.length_cons]
    show fraction_digits fraction (cs ++ tail) (num * 10 + digit_value c) (frac + 1) = _
    rw [this]
    congr 2
    push_cast
    omega

/-- The characters of `symbol` are neither digits nor the decimal point. -/
theorem symbol_not_digit (c : Char) (k : Nat) (h : symbol.get? k = some c) :
    is_digit c = false ∧ c ≠ '.' := by
  have hk : k < 7 := by
    by_contra hk
    have : symbol.get? k = none := List.get?_eq_none.2 (by simp [symbol]; omega)
    rw [this] at h; cases h
  interval_cases k <;> simp [symbol] at h <;> subst h <;> exact ⟨rfl, by decide⟩

/-- The suffix check accepts spaces followed by nothing or by the `k`-th character
of `symbol` and yields the factor `step ^ k`. -/
theorem scan_suffix_accepts (binary : Bool) (num spaces k : Nat) (suffix : List Char)
    (hs : (suffix = [] ∧ k = 0) ∨ ∃ c, suffix = [c] ∧ symbol.get? k = some c) :
    scan_suffix binary num (List.replicate spaces ' ' ++ suffix) =
      Scan.scaling num ((if binary then 1024 else 1000) ^ k) := by
  rcases hs with ⟨rfl, rfl⟩ | ⟨c, rfl, hc⟩
  · have := dropWhile_spaces spaces [] (by simp)
    simp only [List.append_nil] at this
    simp [scan_suffix, this]
  · have hk : k < 7 := by
      by_contra hk
      have : symbol.get? k = none := List.get?_eq_none.2 (by simp [symbol]; omega)
      rw [this] at hc; cases hc
    by_cases h0 : k = 0
    · subst h0
      have hc' : c = ' ' := by simp [symbol] at hc; exact hc.symm
      subst hc'
      have h1 : List.replicate spaces ' ' ++ [' '] = List.replicate (spaces + 1) ' ' ++ [] := by
        rw [List.append_nil, List.replicate_succ']
      have := dropWhile_spaces (spaces + 1) [] (by simp)
      rw [h1]
      simp only [List.append_nil] at this ⊢
      simp [scan_suffix, this]
    · have hfac := (iso_prefix_factor_pow binary k (by omega)).1
      have hne : c ≠ ' ' ∧ iso_prefix_steps c = some k := by
        interval_cases k <;> simp [symbol] at hc <;> subst hc <;> first | omega | decide
      unfold scan_suffix
      rw [dropWhile_spaces spaces [c] (by intro x hx; simp at hx; rw [← hx]; exact hne.1)]
      simp only [hne.2, hfac]

/-- The parser stores `num * factor` when the scan reaches the scaling step with
a product that is a 64 bit value. -/
theorem parse_of_scan_scaling (dst : Nat) (hrn : List Char) (fraction : Int) (binary : Bool)
    (num factor : Nat) (hf : 0 < factor) (hv : num * factor ≤ UINT64_MAX)
    (h : scan_human_readable hrn fraction binary = Scan.scaling num factor) :
    str_parse_human_readable_u64 dst hrn fraction binary = (0, num * factor) := by
  have h1 : ¬ num > UINT64_MAX / factor := not_lt.2 ((Nat.le_div_iff_mul_le hf).2 hv)
  have h2 : num * factor < 2 ^ 64 := by simp only [UINT64_MAX] at hv; omega
  simp only [str_parse_human_readable_u64, h, h1, if_false, Nat.mod_eq_of_lt h2]

/-- The character written for a digit between 1 and 9 is not `'0'`. -/
theorem digit_char_ne_zero (d : Nat) (h0 : d ≠ 0) (h : d < 10) :
    Char.ofNat ('0'.toNat + d) ≠ '0' := by
  interval_cases d <;> first | exact absurd rfl h0 | decide

/-- Shape of a normal end of the digit loop: it appends digits `ds` to `out`, at
most `fraction` of them when `fraction >= 0` and at most `e` of them when the
multiplier is at most `10 ^ e`; `idx` is unchanged or stands right behind a
digit of `ds` that is not `'0'`. -/
theorem fraction_loop_shape (out_len : Nat) (fuel : Nat) : ∀ (n multiplier : Nat) (fraction : Int)
    (out : List Char) (idx : Nat) (out' : List Char) (idx' : Nat),
    fraction_loop out_len fuel n multiplier fraction out idx = Except.ok (out', idx') →
    ∃ ds, out' = out ++ ds ∧ (∀ c ∈ ds, is_digit c = true) ∧
      (0 ≤ fraction → (ds.length : Int) ≤ fraction) ∧
      (∀ e, multiplier ≤ 10 ^ e → ds.length ≤ e) ∧
      (idx' = idx ∨ ∃ pre d post, ds = pre ++ d :: post ∧ d ≠ '0' ∧
        idx' = out.length + pre.length + 1) := by
  induction fuel with
  | zero => intro n m fr out idx out' idx' h; simp [fraction_loop] at h
  | succ fuel ih =>
    intro n m fr out idx out' idx' h
    rw [fraction_loop] at h
    by_cases h1 : m = 0
    · simp [h1] at h
    · rw [if_neg h1] at h
      by_cases h2 : n % m = 0 ∨ fr = 0
      · rw [if_pos h2] at h
        simp only [Except.ok.injEq, Prod.mk.injEq] at h
        obtain ⟨rfl, rfl⟩ := h
        exact ⟨[], by simp, by simp, by simp, by simp, Or.inl rfl⟩
      · rw [if_neg h2] at h
        by_cases h3 : m / 10 = 0
        · simp [h3] at h
        · rw [if_neg h3] at h
          by_cases h4 : n % m / (m / 10) < 10
          · rw [if_neg (not_not.2 h4)] at h
            by_cases h5 : out.length < out_len
            · rw [if_neg (not_not.2 h5)] at h
              obtain ⟨ds, hout, hdig, hfr, hexp, hidx⟩ := ih _ _ _ _ _ _ _ h
              have hfr0 : fr ≠ 0 := fun hh => h2 (Or.inr hh)
              have hnz : n % m ≠ 0 := fun hh => h2 (Or.inl hh)
              refine ⟨Char.ofNat ('0'.toNat + n % m / (m / 10)) :: ds, ?_, ?_, ?_, ?_, ?_⟩
              · rw [hout]; simp
              · intro c hc
                rcases List.mem_cons.1 hc with rfl | hc
                · exact (digit_char_facts _ h4).1
                · exact hdig c hc
              · intro hpos
                have hfr1 : (1 : Int) ≤ fr := Int.add_one_le_of_lt (lt_of_le_of_ne hpos (Ne.symm hfr0))
                have hlen := hfr (Int.sub_nonneg_of_le hfr1)
                rw [List.length_cons, Nat.cast_succ]
                linarith
              · intro e he
                cases e with
                | zero =>
                  have hle1 : m ≤ 1 := by simpa using he
                  have hm1 : m = 1 := Nat.le_antisymm hle1 (Nat.pos_of_ne_zero h1)
                  rw [hm1] at h3; simp at h3
                | succ e =>
                  have hm10 : m / 10 ≤ 10 ^ e := by
                    rw [Nat.pow_succ] at he
                    exact Nat.div_le_of_le_mul (by rw [Nat.mul_comm]; exact he)
                  have := hexp e hm10
                  simp only [List.length_cons]; omega
              · rcases hidx with hidx | ⟨pre, d, post, hds, hd, hidx⟩
                · by_cases hp : n % m / (m / 10) ≠ 0
                  · right
                    refine ⟨[], Char.ofNat ('0'.toNat + n % m / (m / 10)), ds, rfl,
                      digit_char_ne_zero _ hp h4, ?_⟩
                    rw [hidx, if_pos hp]; simp
                  · left
                    rw [hidx, if_neg hp]
                · right
                  refine ⟨Char.ofNat ('0'.toNat + n % m / (m / 10)) :: pre, d, post, ?_, hd, ?_⟩
                  · rw [hds]; rfl
                  · rw [hidx]; simp; omega
            · simp [h5] at h
          · simp [h4] at h

/-- The string functions only append: the string in `dest` after `strscat`
starts with the string before. -/
theorem strscat_prefix (dest src : List Char) (size : Nat) :
    ∃ t, strscat dest src size = dest ++ t := by
  unfold strscat
  by_cases h1 : size = 0 ∨ src = []
  · exact ⟨[], by simp [h1]⟩
  · by_cases h2 : dest.length < size
    · exact ⟨strscpy [] src (size - dest.length), by simp [h1, h2]⟩
    · exact ⟨[], by simp [h1, h2]⟩

/-- What a normal end of the encoder tells: the multiplier is not 0, the digit
loop ended normally with digits `ds` behind the decimal point and the index
`idx`, and the text is the first `idx` characters, a space and the character
`*unit_modifier`, followed by what `strscat` appended of the unit. -/
theorem encoder_ok_inv (out_len number : Nat) (unit : Option (List Char)) (fraction : Int)
    (binary raw : Bool) (text : List Char)
    (h : _get_human_readable_u64 out_len number unit fraction binary raw = Except.ok text) :
    ∃ (out : List Char) (idx : Nat) (appended : List Char),
      (scale_loop raw number (if binary then 1024 else 1000) symbol
        (fraction_scale fraction.toNat 1)).1 ≠ 0 ∧
      fraction_loop out_len 21 number
        (scale_loop raw number (if binary then 1024 else 1000) symbol
          (fraction_scale fraction.toNat 1)).1
        (if deref (scale_loop raw number (if binary then 1024 else 1000) symbol
          (fraction_scale fraction.toNat 1)).2 ≠ ' ' then 3 else min fraction 0 - 1)
        (print_u64 (number / (scale_loop raw number (if binary then 1024 else 1000) symbol
          (fraction_scale fraction.toNat 1)).1) ++ ['.'])
        (print_u64 (number / (scale_loop raw number (if binary then 1024 else 1000) symbol
          (fraction_scale fraction.toNat 1)).1)).length = Except.ok (out, idx) ∧
      text = out.take idx ++ [' '] ++
        (scale_loop raw number (if binary then 1024 else 1000) symbol
          (fraction_scale fraction.toNat 1)).2.take 1 ++ appended ∧
      (unit = none → appended = []) := by
  unfold _get_human_readable_u64 at h
  simp only at h
  generalize (if binary = true then 1024 else 1000) = step at h ⊢
  generalize scale_loop raw number step symbol (fraction_scale fraction.toNat 1) = sc at h ⊢
  by_cases hm : sc.1 = 0
  · simp [hm] at h
  · rw [if_neg hm] at h
    by_cases hw : (print_u64 (number / sc.1)).length < out_len
    · rw [if_neg (not_not.2 hw)] at h
      generalize hfl : fraction_loop out_len 21 number sc.1
        (if deref sc.2 ≠ ' ' then 3 else min fraction 0 - 1)
        (print_u64 (number / sc.1) ++ ['.']) (print_u64 (number / sc.1)).length = res at h
      cases res with
      | error e => simp at h
      | ok p =>
        obtain ⟨o, i⟩ := p
        simp only at h
        by_cases hi : i + 2 < out_len
        · rw [if_neg (not_not.2 hi)] at h
          cases unit with
          | none =>
            simp only [Except.ok.injEq] at h
            exact ⟨o, i, [], hm, rfl, by rw [← h]; simp, fun _ => rfl⟩
          | some u =>
            simp only [Except.ok.injEq] at h
            obtain ⟨t, ht⟩ := strscat_prefix (List.take i o ++ [' '] ++ List.take 1 sc.2) u out_len
            exact ⟨o, i, t, hm, rfl, by rw [← h, ht], fun hh => by cases hh⟩
        · simp [hi] at h
    · simp [hw] at h

/-- The suffix loop leaves `unit_modifier` somewhere in the rest of the table it
started with. -/
theorem scale_loop_drop (raw : Bool) (number step : Nat) : ∀ (p : List Char) (m : Nat),
    ∃ j, (scale_loop raw number step p m).2 = p.drop j := by
  intro p
  induction p with
  | nil => intro m; exact ⟨0, rfl⟩
  | cons c cs ih =>
    intro m
    rw [scale_loop]
    split_ifs
    · obtain ⟨j, hj⟩ := ih (m * step % 2 ^ 64)
      exact ⟨j + 1, by rw [hj]; rfl⟩
    · exact ⟨0, rfl⟩

/-- Behind the blank first entry of `symbol` no blank follows, nor at the NUL. -/
theorem symbol_tail_not_blank (j : Nat) :
    (['k', 'M', 'G', 'T', 'P', 'E'].drop j).take 1 ≠ [' '] ∧
      deref (['k', 'M', 'G', 'T', 'P', 'E'].drop j) ≠ ' ' := by
  have hj7 : j < 6 ∨ 6 ≤ j := by omega
  rcases hj7 with hlt | hge
  · interval_cases j <;> decide
  · rw [List.drop_eq_nil_of_le (by simpa using hge)]
    decide

/-- No suffix is applied, that is the character written behind the space is the
blank first entry of `symbol`, exactly in raw mode and for numbers below
`multiplier * step` (computed in 64 bits). -/
theorem scale_loop_blank (raw : Bool) (number step m : Nat) :
    ((scale_loop raw number step symbol m).2.take 1 = [' '] ↔
        (raw = true ∨ number < m * step % 2 ^ 64)) ∧
      ((scale_loop raw number step symbol m).2.take 1 = [' '] ↔
        deref (scale_loop raw number step symbol m).2 = ' ') := by
  by_cases hc : raw = false ∧ number ≥ m * step % 2 ^ 64
  · have hrun : (scale_loop raw number step symbol m).2 =
        (scale_loop raw number step ['k', 'M', 'G', 'T', 'P', 'E'] (m * step % 2 ^ 64)).2 := by
      simp only [symbol, scale_loop, hc, and_self, if_true]
    obtain ⟨j, hj⟩ := scale_loop_drop raw number step ['k', 'M', 'G', 'T', 'P', 'E']
      (m * step % 2 ^ 64)
    rw [hrun, hj]
    have hno : ¬ (raw = true ∨ number < m * step % 2 ^ 64) := by
      rintro (h | h)
      · rw [hc.1] at h; cases h
      · exact absurd hc.2 (not_le.2 h)
    have hb := symbol_tail_not_blank j
    exact ⟨iff_of_false hb.1 hno, iff_of_false hb.1 hb.2⟩
  · have hstop : (scale_loop raw number step symbol m).2 = symbol := by
      simp only [symbol, scale_loop, hc, if_false]
    have hyes : raw = true ∨ number < m * step % 2 ^ 64 := by
      by_cases hr : raw = true
      · exact Or.inl hr
      · right
        have hr' : raw = false := by cases raw <;> simp_all
        exact not_le.1 (fun hge => hc ⟨hr', hge⟩)
    rw [hstop]
    exact ⟨iff_of_true rfl hyes, iff_of_true rfl rfl⟩

/-- The characters of `frac_text` are digits. -/
theorem frac_text_digits (e : Nat) : ∀ r, r < 10 ^ e → ∀ c ∈ frac_text e r, is_digit c = true := by
  induction e with
  | zero => intro r _ c hc; simp [frac_text] at hc
  | succ e ih =>
    intro r hr c hc
    have hpos : 0 < 10 ^ e := Nat.pow_pos (by decide)
    by_cases hz : r = 0
    · simp [frac_text, hz] at hc
    · have hd : r / 10 ^ e < 10 := by
        rw [Nat.div_lt_iff_lt_mul hpos, Nat.mul_comm, ← Nat.pow_succ]; exact hr
      simp only [frac_text, hz, if_false, List.mem_cons] at hc
      rcases hc with rfl | hc
      · exact (digit_char_facts _ hd).1
      · exact ih _ (Nat.mod_lt _ hpos) c hc

/-- A number below `10 ^ e` whose last digit is not 0 has `e` fractional digits. -/
theorem frac_text_full (e : Nat) : ∀ r, r < 10 ^ e → r % 10 ≠ 0 →
    (frac_text e r).length = e := by
  induction e with
  | zero => intro r hr h0; simp at hr; subst hr; simp at h0
  | succ e ih =>
    intro r hr h0
    have hz : r ≠ 0 := by rintro rfl; simp at h0
    simp only [frac_text, hz, if_false, List.length_cons]
    cases e with
    | zero => simp [frac_text]
    | succ e =>
      have hmod : r % 10 ^ (e + 1) % 10 = r % 10 := by
        rw [Nat.pow_succ, Nat.mul_comm]
        exact Nat.mod_mul_right_mod r 10 (10 ^ e)
      rw [ih (r % 10 ^ (e + 1)) (Nat.mod_lt _ (Nat.pow_pos (by decide))) (by rw [hmod]; exact h0)]

/-- A last digit 0 is not written: the text of `r` with `e + 1` places is the text
of `r / 10` with `e` places. -/
theorem frac_text_tens (e : Nat) : ∀ r, r < 10 ^ (e + 1) → r % 10 = 0 →
    frac_text (e + 1) r = frac_text e (r / 10) := by
  induction e with
  | zero =>
    intro r hr h0
    have : r = 0 := by simp at hr; omega
    subst this; rfl
  | succ e ih =>
    intro r hr h0
    by_cases hz : r = 0
    · subst hz; simp [frac_text]
    · have hz10 : r / 10 ≠ 0 := by omega
      have hpos : 0 < 10 ^ e := Nat.pow_pos (by decide)
      have h1 : r / 10 ^ (e + 1) = r / 10 / 10 ^ e := by
        rw [Nat.pow_succ, Nat.mul_comm, Nat.div_div_eq_div_mul]
      have h2 : r % 10 ^ (e + 1) / 10 = r / 10 % 10 ^ e := by
        rw [Nat.pow_succ, Nat.mul_comm]
        exact Nat.mod_mul_right_div_self r 10 (10 ^ e)
      have h3 : r % 10 ^ (e + 1) % 10 = 0 := by
        rw [Nat.pow_succ, Nat.mul_comm, Nat.mod_mul_right_mod]; exact h0
      have hih := ih (r % 10 ^ (e + 1)) (Nat.mod_lt _ (Nat.pow_pos (by decide))) h3
      rw [frac_text, if_neg hz, hih, h1, h2]
      conv_rhs => rw [frac_text, if_neg hz10]

/-- The digit loop of the encoder for the multiplier `10 ^ e` and the digit
limit `fraction = j <= e`: with `D` the first `j` fractional digits of
`n / 10 ^ e` read as a number, the loop writes `frac_text j D` and possibly
zeros behind it, and leaves `idx` behind `frac_text j D` (where it was when
`D = 0`). -/
theorem fraction_loop_pow10_lim (out_len : Nat) (j : Nat) : ∀ (e fuel n : Nat)
    (out : List Char) (idx : Nat), j ≤ e → j < fuel → out.length + j ≤ out_len →
    ∃ post, fraction_loop out_len fuel n (10 ^ e) (j : Int) out idx =
      Except.ok (out ++ frac_text j (n % 10 ^ e / 10 ^ (e - j)) ++ post,
        if n % 10 ^ e / 10 ^ (e - j) = 0 then idx
        else out.length + (frac_text j (n % 10 ^ e / 10 ^ (e - j))).length) := by
  induction j with
  | zero =>
    intro e fuel n out idx _ hf _
    obtain ⟨k, rfl⟩ : ∃ k, fuel = k + 1 := ⟨fuel - 1, by omega⟩
    have hm0 : 10 ^ e ≠ 0 := (Nat.pow_pos (by decide)).ne'
    have hD : n % 10 ^ e / 10 ^ (e - 0) = 0 :=
      Nat.div_eq_of_lt (Nat.mod_lt _ (Nat.pow_pos (by decide)))
    refine ⟨[], ?_⟩
    rw [fraction_loop]
    simp [hm0, hD, frac_text]
  | succ j ih =>
    intro e fuel n out idx he hf hlen
    obtain ⟨k, rfl⟩ : ∃ k, fuel = k + 1 := ⟨fuel - 1, by omega⟩
    obtain ⟨e', rfl⟩ : ∃ e', e = e' + 1 := ⟨e - 1, by omega⟩
    have hje : j ≤ e' := by omega
    have hpos : 0 < 10 ^ e' := Nat.pow_pos (by decide)
    have hq : 0 < 10 ^ (e' - j) := Nat.pow_pos (by decide)
    have hm : 10 ^ (e' + 1) / 10 = 10 ^ e' := by
      rw [Nat.pow_succ]; exact Nat.mul_div_cancel _ (by decide)
    have hm0 : 10 ^ (e' + 1) ≠ 0 := (Nat.pow_pos (by decide)).ne'
    have hlt : n % 10 ^ (e' + 1) < 10 ^ (e' + 1) := Nat.mod_lt _ (Nat.pow_pos (by decide))
    have hexp : e' + 1 - (j + 1) = e' - j := by omega
    have hsplit : (10 : Nat) ^ e' = 10 ^ (e' - j) * 10 ^ j := by
      rw [← Nat.pow_add, Nat.sub_add_cancel hje]
    rw [hexp]
    generalize hr : n % 10 ^ (e' + 1) = r at hlt ⊢
    have hd : r / 10 ^ e' < 10 := by
      rw [Nat.div_lt_iff_lt_mul hpos, Nat.mul_comm, ← Nat.pow_succ]; exact hlt
    -- the digits of `D`
    have hDdiv : r / 10 ^ (e' - j) / 10 ^ j = r / 10 ^ e' := by
      rw [Nat.div_div_eq_div_mul, ← hsplit]
    have hDmod : r / 10 ^ (e' - j) % 10 ^ j = r % 10 ^ e' / 10 ^ (e' - j) := by
      rw [hsplit]; exact (Nat.mod_mul_right_div_self r (10 ^ (e' - j)) (10 ^ j)).symm
    by_cases hz : r = 0
    · refine ⟨[], ?_⟩
      rw [fraction_loop]
      simp [hm0, hr, hz, frac_text]
    · have hfr0 : ((j + 1 : Nat) : Int) ≠ 0 := by omega
      have hol : out.length < out_len := by omega
      have hcast : ((j + 1 : Nat) : Int) - 1 = (j : Int) := by push_cast; omega
      obtain ⟨post, hrec⟩ := ih e' k r
        (out ++ [Char.ofNat ('0'.toNat + r / 10 ^ e')])
        (if r / 10 ^ e' ≠ 0 then out.length + 1 else idx) hje (by omega)
        (by rw [List.length_append, List.length_singleton]; omega)
      have hloop : fraction_loop out_len (k + 1) n (10 ^ (e' + 1)) ((j + 1 : Nat) : Int) out idx =
          fraction_loop out_len k r (10 ^ e') (j : Int)
            (out ++ [Char.ofNat ('0'.toNat + r / 10 ^ e')])
            (if r / 10 ^ e' ≠ 0 then out.length + 1 else idx) := by
        rw [fraction_loop]
        simp only [hm0, if_false, hr, hz, hfr0, or_self, hm, hpos.ne', hd, not_true_eq_false,
          hol, hcast]
      rw [hloop, hrec]
      by_cases hD' : r % 10 ^ e' / 10 ^ (e' - j) = 0
      · by_cases hd0 : r / 10 ^ e' = 0
        · -- the digit and everything behind it is 0
          have hD : r / 10 ^ (e' - j) = 0 := by
            have := Nat.div_add_mod (r / 10 ^ (e' - j)) (10 ^ j)
            rw [hDdiv, hDmod, hd0, hD'] at this
            simpa using this.symm
          refine ⟨Char.ofNat ('0'.toNat + r / 10 ^ e') :: post, ?_⟩
          simp [hD', hD, hd0, frac_text_zero, frac_text]
        · have hD : r / 10 ^ (e' - j) ≠ 0 := by
            intro h0; rw [h0] at hDdiv; simp at hDdiv; exact hd0 hDdiv.symm
          refine ⟨post, ?_⟩
          simp [hD', hD, hd0, frac_text, hDdiv, hDmod, frac_text_zero]
      · have hD : r / 10 ^ (e' - j) ≠ 0 := by
          intro h0; rw [h0] at hDmod; simp at hDmod; exact hD' hDmod.symm
        refine ⟨post, ?_⟩
        simp [hD', hD, frac_text, hDdiv, hDmod]
        omega

/-- The suffix loop takes `k` steps when the number is at least
`m * step ^ i` for `i <= k` without wrap-around and the loop stops there: at
the end of the table or because the number is below the next threshold
(computed in 64 bits). -/
theorem scale_loop_steps (number step : Nat) (k : Nat) : ∀ (p : List Char) (m : Nat),
    k ≤ p.length →
    (∀ i, i < k → m * step ^ (i + 1) < 2 ^ 64 ∧ m * step ^ (i + 1) ≤ number) →
    (k = p.length ∨ number < m * step ^ k * step % 2 ^ 64) →
    scale_loop false number step p m = (m * step ^ k, p.drop k) := by
  induction k with
  | zero =>
    intro p m _ _ hstop
    cases p with
    | nil => simp [scale_loop]
    | cons c cs =>
      have hlt : number < m * step % 2 ^ 64 := by
        rcases hstop with h | h
        · simp at h
        · simpa using h
      have hc : ¬ (false = false ∧ number ≥ m * step % 2 ^ 64) := fun h => absurd h.2 (not_le.2 hlt)
      rw [scale_loop, if_neg hc]
      simp
  | succ k ih =>
    intro p m hk hsteps hstop
    cases p with
    | nil => simp at hk
    | cons c cs =>
      have h0 := hsteps 0 (by omega)
      simp only [Nat.zero_add, Nat.pow_one] at h0
      have hmod : m * step % 2 ^ 64 = m * step := Nat.mod_eq_of_lt h0.1
      have hrec := ih cs (m * step) (by simpa using hk)
        (fun i hi => by
          have := hsteps (i + 1) (by omega)
          rw [Nat.pow_succ, Nat.mul_comm (step ^ (i + 1)) step, ← Nat.mul_assoc] at this
          exact this)
        (by
          rcases hstop with h | h
          · left; simpa using h
          · right
            rw [Nat.pow_succ, Nat.mul_comm (step ^ k) step, ← Nat.mul_assoc] at h
            exact h)
      rw [scale_loop, hmod, if_pos ⟨rfl, h0.2⟩, hrec, Nat.pow_succ,
        Nat.mul_comm (step ^ k) step, ← Nat.mul_assoc]
      rfl

/-- Rendering with a decimal suffix: when the suffix loop ends after `k >= 1`
steps with the multiplier `10 ^ e` (`3 <= e <= 19`), the text is the integer
part `n / 10 ^ e`, the first three fractional digits without trailing zeros
(behind a `'.'` when one of them is not 0), a space and the `k`-th character
of `symbol`. -/
theorem scaled_encode (out_len n e k : Nat) (fraction : Int) (binary : Bool)
    (hn : n < 2 ^ 64) (he3 : 3 ≤ e) (he : e ≤ 19) (hk1 : 1 ≤ k) (hlen : 24 ≤ out_len)
    (hsel : scale_loop false n (if binary then 1024 else 1000) symbol
      (fraction_scale fraction.toNat 1) = (10 ^ e, symbol.drop k)) :
    _get_human_readable_u64 out_len n none fraction binary false =
      Except.ok (print_u64 (n / 10 ^ e) ++
        (if n % 10 ^ e / 10 ^ (e - 3) = 0 then []
          else '.' :: frac_text 3 (n % 10 ^ e / 10 ^ (e - 3))) ++
        [' '] ++ (symbol.drop k).take 1) := by
  have hpos : 0 < 10 ^ e := Nat.pow_pos (by decide)
  have hq : n / 10 ^ e < 10 ^ (20 - e) := by
    rw [Nat.div_lt_iff_lt_mul hpos, ← Nat.pow_add, Nat.sub_add_cancel (by omega)]
    exact lt_trans hn (by norm_num)
  have hwl := print_u64_length (n / 10 ^ e) (20 - e) (by omega) hq
  have hD : n % 10 ^ e / 10 ^ (e - 3) < 10 ^ 3 := by
    rw [Nat.div_lt_iff_lt_mul (Nat.pow_pos (by decide)), ← Nat.pow_add,
      Nat.add_sub_cancel' he3]
    exact Nat.mod_lt _ hpos
  have hft : (frac_text 3 (n % 10 ^ e / 10 ^ (e - 3))).length ≤ 3 := by
    obtain ⟨_, _, h, _⟩ := fraction_digits_text 0 [] (by simp) 3
      (n % 10 ^ e / 10 ^ (e - 3)) 0 (-3) hD (by simp)
      (by simpa using lt_trans hD (by norm_num))
    exact h
  have hsym : deref (symbol.drop k) ≠ ' ' := by
    obtain ⟨k', rfl⟩ : ∃ k', k = k' + 1 := ⟨k - 1, by omega⟩
    exact (symbol_tail_not_blank k').2
  obtain ⟨post, hloop⟩ := fraction_loop_pow10_lim out_len 3 e 21 n
    (print_u64 (n / 10 ^ e) ++ ['.']) (print_u64 (n / 10 ^ e)).length he3 (by decide)
    (by rw [List.length_append, List.length_singleton]; omega)
  unfold _get_human_readable_u64
  simp only [hsel, hpos.ne', if_false, hsym, ne_eq, not_false_eq_true, if_true]
  rw [if_neg (by omega)]
  have hcast : ((3 : Nat) : Int) = 3 := rfl
  rw [hcast] at hloop
  rw [hloop]
  simp only
  by_cases hz : n % 10 ^ e / 10 ^ (e - 3) = 0
  · simp only [hz, if_true, frac_text_zero, List.append_nil]
    rw [if_neg (by omega), List.append_assoc (print_u64 (n / 10 ^ e)), List.take_left]
  · simp only [hz, if_false]
    rw [if_neg (by rw [List.length_append, List.length_singleton]; omega)]
    have htake : List.take ((print_u64 (n / 10 ^ e) ++ ['.']).length +
        (frac_text 3 (n % 10 ^ e / 10 ^ (e - 3))).length)
        (print_u64 (n / 10 ^ e) ++ ['.'] ++ frac_text 3 (n % 10 ^ e / 10 ^ (e - 3)) ++ post) =
        print_u64 (n / 10 ^ e) ++ ['.'] ++ frac_text 3 (n % 10 ^ e / 10 ^ (e - 3)) := by
      rw [← List.length_append]
      exact List.take_left _ _
    rw [htake]
    simp

/-- Rendering without suffix: in raw mode, or when the number is below the first
threshold `10 ^ e * step` (computed in 64 bits), the text is the one of
`raw_encode`. -/
theorem blank_encode (out_len n e : Nat) (binary raw : Bool) (hn : n < 2 ^ 64) (he : e ≤ 19)
    (hlen : 24 ≤ out_len)
    (hs : raw = true ∨ n < 10 ^ e * (if binary then 1024 else 1000) % 2 ^ 64) :
    _get_human_readable_u64 out_len n none (e : Int) binary raw =
      Except.ok (print_u64 (n / 10 ^ e) ++
        (if n % 10 ^ e = 0 then [] else '.' :: frac_text e (n % 10 ^ e)) ++ [' ', ' ']) := by
  have hp := pow10_lt e he
  have hpos : 0 < 10 ^ e := Nat.pow_pos (by decide)
  have hq : n / 10 ^ e < 10 ^ (20 - e) := by
    rw [Nat.div_lt_iff_lt_mul hpos, ← Nat.pow_add, Nat.sub_add_cancel (by omega)]
    exact lt_trans hn (by norm_num)
  have hwl := print_u64_length (n / 10 ^ e) (20 - e) (by omega) hq
  have hsc : fraction_scale e 1 = 10 ^ e := by
    rw [fraction_scale_exact e 1 (by simpa using hp)]; simp
  have hfl := fraction_loop_pow10 out_len e 21 n (min (e : Int) 0 - 1)
    (print_u64 (n / 10 ^ e) ++ ['.']) (print_u64 (n / 10 ^ e)).length (by omega) (by omega)
    (by simp; omega)
  have hfe : (frac_text e (n % 10 ^ e)).length ≤ e := by
    obtain ⟨_, _, h, _⟩ := fraction_digits_text 0 [] (by simp) e (n % 10 ^ e) 0 (-e)
      (Nat.mod_lt _ hpos) (by simp)
      (by simpa using lt_of_lt_of_le (Nat.mod_lt n hpos) (le_of_lt hp))
    exact h
  have hstop : scale_loop raw n (if binary then 1024 else 1000) symbol (10 ^ e) =
      (10 ^ e, symbol) := by
    have hc : ¬ (raw = false ∧ n ≥ 10 ^ e * (if binary then 1024 else 1000) % 2 ^ 64) := by
      rintro ⟨h1, h2⟩
      rcases hs with h | h
      · rw [h1] at h; cases h
      · exact absurd h2 (not_le.2 h)
    simp only [symbol, scale_loop, hc, if_false]
  unfold _get_human_readable_u64
  simp only [Int.toNat_ofNat, hsc, hstop, hpos.ne', if_false]
  have hderef : deref symbol = ' ' := rfl
  simp only [hderef, ne_eq, not_true_eq_false, if_false]
  rw [if_neg (by omega), hfl]
  have hsym : List.take 1 symbol = [' '] := rfl
  by_cases hz : n % 10 ^ e = 0
  · simp only [hz, if_true, frac_text_zero, List.append_nil]
    rw [if_neg (by omega), hsym]
    simp
  · simp only [hz, if_false]
    rw [if_neg (by simp; omega)]
    rw [List.take_of_length_le (by simp; omega), hsym]
    simp

/-- The decoder on a printed integer `a`, the fractional text of `r` with `e`
places (`fraction = e`), at least one space and nothing or the `k`-th
character of `symbol`: it returns 0 and stores `(a * 10 ^ e + r) * step ^ k`
when that is a 64 bit value. -/
theorem decode_frac_text (dst a e r spaces k : Nat) (suffix : List Char) (binary : Bool)
    (hr : r < 10 ^ e) (hsp : 0 < spaces)
    (hs : (suffix = [] ∧ k = 0) ∨ ∃ c, suffix = [c] ∧ symbol.get? k = some c)
    (hv : (a * 10 ^ e + r) * (if binary then 1024 else 1000) ^ k ≤ UINT64_MAX) :
    str_parse_human_readable_u64 dst (print_u64 a ++
        (if r = 0 then [] else '.' :: frac_text e r) ++ List.replicate spaces ' ' ++ suffix)
      (e : Int) binary = (0, (a * 10 ^ e + r) * (if binary then 1024 else 1000) ^ k) := by
  have hk : k < 7 := by
    rcases hs with ⟨_, rfl⟩ | ⟨c, _, hc⟩
    · decide
    · by_contra hk
      have : symbol.get? k = none := List.get?_eq_none.2 (by simp [symbol]; omega)
      rw [this] at hc; cases hc
  obtain ⟨_, hstep_pos, _⟩ := iso_prefix_factor_pow binary k (by omega)
  have hN : a * 10 ^ e + r ≤ UINT64_MAX := le_trans (Nat.le_mul_of_pos_right _ hstep_pos) hv
  have hN' : a * 10 ^ e + r < 2 ^ 64 := by simp only [UINT64_MAX] at hN; omega
  have ha : a ≤ UINT64_MAX :=
    le_trans (le_trans (Nat.le_mul_of_pos_right _ (Nat.pow_pos (by decide)))
      (Nat.le_add_right _ _)) hN
  obtain ⟨hne, hdig, hval⟩ := print_u64_spec a
  obtain ⟨s, rfl⟩ : ∃ s, spaces = s + 1 := ⟨spaces - 1, by omega⟩
  have htail : ∀ c, (List.replicate (s + 1) ' ' ++ suffix).head? = some c →
      is_digit c = false := by
    intro c hc
    simp only [List.replicate_succ, List.cons_append, List.head?_cons, Option.some.injEq] at hc
    rw [← hc]; rfl
  apply parse_of_scan_scaling dst _ _ _ _ _ hstep_pos hv
  by_cases hz : r = 0
  · subst hz
    simp only [if_true, List.append_nil, Nat.add_zero, List.append_assoc] at hN' ⊢
    have hst := strtoull_digits (print_u64 a) (List.replicate (s + 1) ' ' ++ suffix) hne hdig htail
    rw [hval, if_neg (not_lt.2 ha)] at hst
    have hcons : List.replicate (s + 1) ' ' ++ suffix =
        ' ' :: (List.replicate s ' ' ++ suffix) := by
      rw [List.replicate_succ, List.cons_append]
    rw [scan_of_next _ _ _ ' ' (List.replicate s ' ' ++ suffix) (by rw [hst])
      (by rw [hst, hcons]), if_neg (by decide), hst]
    simp only [Int.toNat_ofNat]
    rw [fraction_pad_exact _ _ hN', ← hcons]
    exact scan_suffix_accepts binary _ (s + 1) k suffix hs
  · simp only [hz, if_false, List.append_assoc, List.cons_append]
    have hst := strtoull_digits (print_u64 a)
      ('.' :: (frac_text e r ++ (List.replicate (s + 1) ' ' ++ suffix))) hne hdig
      (by intro c hc; simp only [List.head?_cons, Option.some.injEq] at hc; rw [← hc]; rfl)
    rw [hval, if_neg (not_lt.2 ha)] at hst
    obtain ⟨num', h1, h2, h3⟩ := fraction_digits_text (e : Int)
      (List.replicate (s + 1) ' ' ++ suffix) htail e r a 0 hr (by simp) hN'
    rw [scan_of_next _ _ _ '.' _ (by rw [hst]) (by rw [hst]), if_pos rfl, hst]
    simp only [h1]
    have hcount : ((e : Int) - (0 + ((frac_text e r).length : Int))).toNat =
        e - (frac_text e r).length := by omega
    rw [hcount, fraction_pad_exact _ _ (by omega), h3]
    exact scan_suffix_accepts binary _ (s + 1) k suffix hs

/-- The decoder rejects a printed integer followed by `'.'` and more digits than
`fraction` allows, whatever follows. -/
theorem decode_extra_digits (dst a : Nat) (ds rest : List Char) (fraction : Int) (binary : Bool)
    (hds : ∀ c ∈ ds, is_digit c = true) (hf0 : 0 ≤ fraction) (hmore : fraction < ds.length) :
    str_parse_human_readable_u64 dst (print_u64 a ++ '.' :: ds ++ rest) fraction binary =
      (-1, dst) := by
  apply parse_of_scan_failed
  intro he
  obtain ⟨hne, hdig, hval⟩ := print_u64_spec a
  have hst := strtoull_digits (print_u64 a) ('.' :: ds ++ rest) hne hdig
    (by intro c hc; simp only [List.cons_append, List.head?_cons, Option.some.injEq] at hc
        rw [← hc]; rfl)
  have hin : print_u64 a ++ '.' :: ds ++ rest = print_u64 a ++ ('.' :: ds ++ rest) := by simp
  rw [hin] at he ⊢
  have hnext : (strtoull (print_u64 a ++ ('.' :: ds ++ rest))).next = '.' :: (ds ++ rest) := by
    rw [hst]; split_ifs <;> rfl
  obtain ⟨j, num', h1, h2, h3, h4⟩ := fraction_digits_drop fraction (ds ++ rest)
    (strtoull (print_u64 a ++ ('.' :: ds ++ rest))).value 0
  have hj : j < ds.length := by omega
  rw [scan_of_next _ fraction binary '.' _ he hnext, if_pos rfl, h1]
  simp only
  rw [List.drop_append_of_le_length (le_of_lt hj)]
  cases hd : List.drop j ds with
  | nil =>
    have := congrArg List.length hd
    simp at this; omega
  | cons d ds' =>
    have hdd : is_digit d = true :=
      hds d (List.mem_of_mem_drop (by rw [hd]; exact List.mem_cons_self _ _))
    simpa using scan_suffix_digit binary _ d _ hdd

/-- Encoding with `fraction = 2` in decimal mode and decoding the text, when the
suffix loop ends after `k >= 1` steps with the multiplier `10 ^ e`: with `D`
the first three fractional digits, the decoder accepts the text when the third
digit is 0 and rejects it otherwise. -/
theorem suffix_round_trip_core (out_len dst n k e : Nat) (hn : n < 2 ^ 64) (hk1 : 1 ≤ k)
    (hk : k ≤ 6) (he3 : 3 ≤ e) (he : e ≤ 19) (hlen : 24 ≤ out_len)
    (hsel : scale_loop false n 1000 symbol (fraction_scale 2 1) = (10 ^ e, symbol.drop k)) :
    ∃ text, str_get_human_readable_u64 out_len n none 2 false false = Except.ok text ∧
      (n % 10 ^ e / 10 ^ (e - 3) % 10 = 0 →
        (n / 10 ^ e * 10 ^ 2 + n % 10 ^ e / 10 ^ (e - 3) / 10) * 1000 ^ k ≤ UINT64_MAX →
        str_parse_human_readable_u64 dst text 2 false =
          (0, (n / 10 ^ e * 10 ^ 2 + n % 10 ^ e / 10 ^ (e - 3) / 10) * 1000 ^ k)) ∧
      (n % 10 ^ e / 10 ^ (e - 3) % 10 ≠ 0 →
        str_parse_human_readable_u64 dst text 2 false = (-1, dst)) := by
  have henc := scaled_encode out_len n e k 2 false hn he3 he hk1 hlen
    (by simpa using hsel)
  have hD : n % 10 ^ e / 10 ^ (e - 3) < 10 ^ 3 := by
    rw [Nat.div_lt_iff_lt_mul (Nat.pow_pos (by decide)), ← Nat.pow_add,
      Nat.add_sub_cancel' he3]
    exact Nat.mod_lt _ (Nat.pow_pos (by decide))
  obtain ⟨c, hc, hsym⟩ : ∃ c, symbol.get? k = some c ∧ (symbol.drop k).take 1 = [c] := by
    interval_cases k <;> exact ⟨_, rfl, rfl⟩
  rw [hsym] at henc
  refine ⟨_, henc, ?_, ?_⟩
  · intro h0 hv
    generalize n % 10 ^ e / 10 ^ (e - 3) = D at hD h0 hv ⊢
    have htens := frac_text_tens 2 D hD h0
    have hdec := decode_frac_text dst (n / 10 ^ e) 2 (D / 10) 1 k [c] false
      (by norm_num at hD ⊢; omega) (by decide) (Or.inr ⟨c, rfl, hc⟩) (by simpa using hv)
    simp only [Bool.false_eq_true, if_false] at hdec
    have htext : print_u64 (n / 10 ^ e) ++ (if D = 0 then [] else '.' :: frac_text 3 D) ++
        [' '] ++ [c] = print_u64 (n / 10 ^ e) ++
        (if D / 10 = 0 then [] else '.' :: frac_text 2 (D / 10)) ++ List.replicate 1 ' ' ++
        [c] := by
      by_cases hz : D = 0
      · have hz10 : D / 10 = 0 := by omega
        rw [if_pos hz, if_pos hz10]; rfl
      · have hz10 : D / 10 ≠ 0 := by omega
        rw [if_neg hz, if_neg hz10, htens]; rfl
    rw [htext]
    exact hdec
  · intro h0
    generalize n % 10 ^ e / 10 ^ (e - 3) = D at hD h0 ⊢
    have hz : D ≠ 0 := by rintro rfl; simp at h0
    have hfull := frac_text_full 3 D hD h0
    have hdig := frac_text_digits 3 D hD
    have hrej := decode_extra_digits dst (n / 10 ^ e) (frac_text 3 D) ([' '] ++ [c]) 2 false
      hdig (by decide) (by rw [hfull]; decide)
    rw [if_neg hz]
    have htext : print_u64 (n / 10 ^ e) ++ '.' :: frac_text 3 D ++ [' '] ++ [c] =
        print_u64 (n / 10 ^ e) ++ '.' :: frac_text 3 D ++ ([' '] ++ [c]) := by simp
    rw [htext]
    exact hrej

/-! ## Claims, continued -/

/-- C11, as stated, fails. With `fraction = 2` in decimal mode 123456789 is
rendered as `"1.234 M"`, which the decoder rejects with -1 (three fractional
digits); 100099 is rendered as `"1 k"` and read back as 100000, off by 99
where `1000 ^ 1 / 100` is 10; `2 ^ 64 - 1` is rendered as `"92.06 "` (the
multiplier wrapped) and read back as 9206. -/
theorem suffix_round_trip_fails :
    str_get_human_readable_u64 48 123456789 none 2 false false = Except.ok "1.234 M".toList ∧
      str_parse_human_readable_u64 0 "1.234 M".toList 2 false = (-1, 0) ∧
      str_get_human_readable_u64 48 100099 none 2 false false = Except.ok "1 k".toList ∧
      str_parse_human_readable_u64 0 "1 k".toList 2 false = (0, 100000) ∧
      ¬ (100099 - 100000 < 1000 ^ 1 / 100) ∧
      str_get_human_readable_u64 48 (2 ^ 64 - 1) none 2 false false = Except.ok "92.06 ".toList ∧
      str_parse_human_readable_u64 0 "92.06 ".toList 2 false = (0, 9206) := by
  decide

/-- C11, amended: round trip with suffixes for `fraction = 2` in decimal mode.
Let `n` be below `10 ^ 20 mod 2 ^ 64` (the first threshold that wraps) and let
`k <= 5` be the number of suffix steps, that is
`100 * 1000 ^ k <= n < 100 * 1000 ^ (k + 1)` (`n < 100000` for `k = 0`). The
encoder returns a text that ends in the `k`-th character of `symbol`. For
`k = 0` the decoder returns 0 and stores `n`. For `k >= 1` the decoder accepts
the text exactly when the digit of `n` at `10 ^ (3 k - 1)`, the third
fractional digit, is 0; it then stores `n - n mod 1000 ^ k`, which differs from
`n` by less than `1000 ^ k / 10`. Otherwise it returns -1 and leaves `*dst`. -/
theorem suffix_round_trip (out_len dst n k : Nat) (hk : k ≤ 5)
    (hlo : k = 0 ∨ 100 * 1000 ^ k ≤ n) (hhi : n < 100 * 1000 ^ (k + 1))
    (hwrap : n < 10 ^ 20 % 2 ^ 64) (hlen : 24 ≤ out_len) :
    ∃ text, str_get_human_readable_u64 out_len n none 2 false false = Except.ok text ∧
      text.getLast? = symbol.get? k ∧
      (k = 0 → str_parse_human_readable_u64 dst text 2 false = (0, n)) ∧
      (1 ≤ k → n / 10 ^ (3 * k - 1) % 10 = 0 →
        str_parse_human_readable_u64 dst text 2 false = (0, n - n % 1000 ^ k) ∧
        n % 1000 ^ k < 1000 ^ k / 10) ∧
      (1 ≤ k → n / 10 ^ (3 * k - 1) % 10 ≠ 0 →
        str_parse_human_readable_u64 dst text 2 false = (-1, dst)) := by
  have hw : n < 7766279631452241920 := by norm_num at hwrap; exact hwrap
  have hn : n < 2 ^ 64 := lt_trans hw (by norm_num)
  by_cases hk0 : k = 0
  · subst hk0
    have henc := blank_encode out_len n 2 false false hn (by decide) hlen
      (Or.inr (by norm_num at hhi ⊢; exact hhi))
    refine ⟨_, henc, ?_, fun _ => raw_decode dst n 2 false hn,
      fun h => absurd h (by decide), fun h => absurd h (by decide)⟩
    simp [symbol]
  · have hk1 : 1 ≤ k := Nat.pos_of_ne_zero hk0
    have hlo' : 100 * 1000 ^ k ≤ n := by
      rcases hlo with h | h
      · exact absurd h hk0
      · exact h
    have hpow : 100 * 1000 ^ k = 10 ^ (3 * k + 2) := by
      interval_cases k <;> norm_num
    have hsel : scale_loop false n 1000 symbol (fraction_scale 2 1) =
        (10 ^ (3 * k + 2), symbol.drop k) := by
      have h100 : fraction_scale 2 1 = 100 := by decide
      rw [h100, ← hpow]
      apply scale_loop_steps n 1000 k symbol 100 (by simp [symbol]; omega)
      · intro i hi
        have h1 : 1000 ^ (i + 1) ≤ 1000 ^ k := Nat.pow_le_pow_right (by decide) (by omega)
        have h2 : 1000 ^ k ≤ 1000 ^ 5 := Nat.pow_le_pow_right (by decide) hk
        norm_num at h2
        constructor
        · norm_num; omega
        · omega
      · right
        interval_cases k <;> norm_num at hhi ⊢ <;> omega
    obtain ⟨text, henc, hacc, hrej⟩ := suffix_round_trip_core out_len dst n k (3 * k + 2) hn hk1
      (by omega) (by omega) (by omega) hlen hsel
    have hexp : 3 * k + 2 - 3 = 3 * k - 1 := by omega
    rw [hexp] at hacc hrej
    have hdigit : n % 10 ^ (3 * k + 2) / 10 ^ (3 * k - 1) % 10 = n / 10 ^ (3 * k - 1) % 10 := by
      interval_cases k <;> norm_num <;> omega
    rw [hdigit] at hacc hrej
    refine ⟨text, henc, ?_, fun h => absurd h hk0, ?_, fun _ h => hrej h⟩
    · have henc2 := scaled_encode out_len n (3 * k + 2) k 2 false hn (by omega) (by omega) hk1
        hlen (by simpa using hsel)
      have heq : Except.ok text = Except.ok _ := henc.symm.trans henc2
      simp only [Except.ok.injEq] at heq
      rw [heq]
      interval_cases k <;> simp [symbol]
    · intro _ h0
      have hval : (n / 10 ^ (3 * k + 2) * 10 ^ 2 +
          n % 10 ^ (3 * k + 2) / 10 ^ (3 * k - 1) / 10) * 1000 ^ k = n - n % 1000 ^ k := by
        interval_cases k <;> norm_num <;> omega
      have hle : n - n % 1000 ^ k ≤ UINT64_MAX := by
        simp only [UINT64_MAX]; omega
      have hacc' := hacc h0 (by rw [hval]; exact hle)
      rw [hval] at hacc'
      refine ⟨hacc', ?_⟩
      interval_cases k <;> norm_num at h0 ⊢ <;> omega

/-- C11, amended, at 150000 (`"1.5 k"`, read back exactly). -/
theorem suffix_round_trip_witness :
    (1 ≤ 5 ∧ (1 = 0 ∨ 100 * 1000 ^ 1 ≤ 150000) ∧ 150000 < 100 * 1000 ^ (1 + 1) ∧
      150000 < 10 ^ 20 % 2 ^ 64 ∧ 24 ≤ 48) ∧
    ∃ text, str_get_human_readable_u64 48 150000 none 2 false false = Except.ok text ∧
      text.getLast? = symbol.get? 1 ∧
      (1 = 0 → str_parse_human_readable_u64 7 text 2 false = (0, 150000)) ∧
      (1 ≤ 1 → 150000 / 10 ^ (3 * 1 - 1) % 10 = 0 →
        str_parse_human_readable_u64 7 text 2 false = (0, 150000 - 150000 % 1000 ^ 1) ∧
        150000 % 1000 ^ 1 < 1000 ^ 1 / 10) ∧
      (1 ≤ 1 → 150000 / 10 ^ (3 * 1 - 1) % 10 ≠ 0 →
        str_parse_human_readable_u64 7 text 2 false = (-1, 7)) :=
  ⟨by decide, suffix_round_trip 48 7 150000 1 (by decide) (by decide) (by decide) (by decide)
    (by decide)⟩

/-- Truncating append on the level of strings. For every `dest` of length `l`,
every `src` and every `size > 0` with `l < size`, the string in `dest` after
`strscat(dest, src, size)` is the first `min (l + len src) (size - 1)`
characters of `dest` followed by `src`, and it is shorter than `size`. When
the buffer is already full (`l >= size - 1`) or `src` is empty the string in
`dest` is unchanged. -/
theorem strscat_truncates (dest src : List Char) (size : Nat) :
    (0 < size → dest.length < size →
        strscat dest src size =
          (dest ++ src).take (min (dest.length + src.length) (size - 1)) ∧
        (strscat dest src size).length < size) ∧
      (size - 1 ≤ dest.length ∨ src = [] → strscat dest src size = dest) := by
  constructor
  · intro hs hl
    have hcat : strscat dest src size = dest ++ src.take (size - dest.length - 1) := by
      unfold strscat strscpy
      by_cases hsrc : src = []
      · simp [hsrc]
      · have h1 : ¬ (size = 0 ∨ src = []) := by
          intro h; rcases h with h | h
          · omega
          · exact hsrc h
        have h2 : ¬ (size - dest.length = 0) := by omega
        simp only [h1, if_false, hl, if_true, h2]
    rw [hcat]
    constructor
    · have hd : List.take (min (dest.length + src.length) (size - 1)) dest = dest :=
        List.take_of_length_le (by omega)
      rw [List.take_append_eq_append_take, hd]
      congr 1
      by_cases hfit : src.length ≤ size - dest.length - 1
      · rw [List.take_of_length_le hfit, List.take_of_length_le (by omega)]
      · congr 1
        omega
    · rw [List.length_append, List.length_take]
      omega
  · intro h
    unfold strscat strscpy
    by_cases h1 : size = 0 ∨ src = []
    · simp [h1]
    · have hsrc : src ≠ [] := fun hh => h1 (Or.inr hh)
      have hfull : size - 1 ≤ dest.length := by
        rcases h with h | h
        · exact h
        · exact absurd h hsrc
      simp only [h1, if_false]
      by_cases hl : dest.length < size
      · have h2 : ¬ (size - dest.length = 0) := by omega
        have h3 : size - dest.length - 1 = 0 := by omega
        simp [hl, h2, h3]
      · simp [hl]

/-- The string level of `strscat` for `dest = "120 k"`, `src = "bit/s"` and the
sizes 8 (two characters fit) and 6 (the buffer is full). -/
theorem strscat_truncates_witness :
    ((0 < 8 ∧ "120 k".toList.length < 8) ∧
        strscat "120 k".toList "bit/s".toList 8 = "120 kbi".toList ∧
        (strscat "120 k".toList "bit/s".toList 8).length < 8) ∧
      strscat "120 k".toList "bit/s".toList 6 = "120 k".toList :=
  ⟨⟨by decide, (strscat_truncates "120 k".toList "bit/s".toList 8).1 (by decide) (by decide)⟩,
    (strscat_truncates "120 k".toList "bit/s".toList 6).2 (Or.inl (by decide))⟩

/-- The string in front of the first NUL of a buffer. -/
theorem cstring_append_nul (s rest : List Char) (hs : ∀ c ∈ s, c ≠ NUL) :
    cstring (s ++ NUL :: rest) = s := by
  induction s with
  | nil => simp [cstring]
  | cons c cs ih =>
    have hc := hs c (List.mem_cons_self _ _)
    have := ih (fun x hx => hs x (List.mem_cons_of_mem _ hx))
    simp [cstring, hc, this]

/-- A NUL behind a run of NULs is a NUL in front of it. -/
theorem replicate_nul_shift (p : Nat) (tl : List Char) :
    List.replicate p NUL ++ NUL :: tl = NUL :: (List.replicate p NUL ++ tl) := by
  induction p with
  | zero => rfl
  | succ p ih => rw [List.replicate_succ, List.cons_append, ih, List.cons_append]

/-- Function `strscat` on the bytes of the buffer and on the level of strings:
when the buffer holds the string `dest`, its NUL and further bytes, and has at
least `size` bytes, it holds the string `strscat dest src size`, a NUL and
further bytes afterwards, and has the same length. -/
theorem strscat_bytes_spec (dest rest src : List Char) (size : Nat)
    (hdest : ∀ c ∈ dest, c ≠ NUL) (hsize : size ≤ (dest ++ NUL :: rest).length) :
    ∃ tl, strscat_bytes (dest ++ NUL :: rest) src size = strscat dest src size ++ NUL :: tl ∧
      (strscat_bytes (dest ++ NUL :: rest) src size).length = (dest ++ NUL :: rest).length := by
  have hl : cstring (dest ++ NUL :: rest) = dest := cstring_append_nul dest rest hdest
  unfold strscat_bytes strscat
  by_cases h1 : size = 0 ∨ src = []
  · rw [if_pos h1, if_pos h1]; exact ⟨rest, rfl, rfl⟩
  · rw [if_neg h1, if_neg h1]
    simp only [hl]
    by_cases h2 : dest.length < size
    · rw [if_pos h2, if_pos h2]
      have hne : ¬ (size - dest.length = 0) := by omega
      simp only [strscpy_at, strscpy, hne, if_false]
      have htake : List.take dest.length (dest ++ NUL :: rest) = dest := List.take_left _ _
      obtain ⟨x, tl, hdrop⟩ : ∃ x tl, List.drop (dest.length + (size - dest.length - 1))
          (dest ++ NUL :: rest) = x :: tl := by
        cases hd : List.drop (dest.length + (size - dest.length - 1)) (dest ++ NUL :: rest) with
        | nil =>
          have := congrArg List.length hd
          simp only [List.length_drop, List.length_nil] at this
          omega
        | cons x tl => exact ⟨x, tl, rfl⟩
      have hcopy : strncpy_at (dest ++ NUL :: rest) dest.length src (size - dest.length - 1) =
          (dest ++ (List.take (size - dest.length - 1) src ++
            List.replicate (size - dest.length - 1 - src.length) NUL)) ++ x :: tl := by
        simp only [strncpy_at, htake, hdrop, List.append_assoc]
      have hlen : (dest ++ (List.take (size - dest.length - 1) src ++
          List.replicate (size - dest.length - 1 - src.length) NUL)).length =
          dest.length + (size - dest.length - 1) := by
        simp only [List.length_append, List.length_take, List.length_replicate]
        omega
      have hset : (strncpy_at (dest ++ NUL :: rest) dest.length src
          (size - dest.length - 1)).set (dest.length + (size - dest.length - 1)) NUL =
          (dest ++ (List.take (size - dest.length - 1) src ++
            List.replicate (size - dest.length - 1 - src.length) NUL)) ++ NUL :: tl := by
        rw [hcopy, ← hlen, List.set_append_right _ _ (le_refl _), Nat.sub_self]
        rfl
      rw [hset]
      have hlen2 : ((dest ++ (List.take (size - dest.length - 1) src ++
          List.replicate (size - dest.length - 1 - src.length) NUL)) ++ NUL :: tl).length =
          (dest ++ NUL :: rest).length := by
        have := congrArg List.length hdrop
        simp only [List.length_drop, List.length_cons] at this
        rw [List.length_append, hlen, List.length_cons]
        omega
      refine ⟨List.replicate (size - dest.length - 1 - src.length) NUL ++ tl, ?_, hlen2⟩
      simp only [List.append_assoc, replicate_nul_shift]
    · rw [if_neg h2, if_neg h2]; exact ⟨rest, rfl, rfl⟩

/-- The string after `strscat` has no NUL inside when `dest` and `src` have none. -/
theorem strscat_no_nul (dest src : List Char) (size : Nat)
    (hdest : ∀ c ∈ dest, c ≠ NUL) (hsrc : ∀ c ∈ src, c ≠ NUL) :
    ∀ c ∈ strscat dest src size, c ≠ NUL := by
  intro c hc
  unfold strscat strscpy at hc
  by_cases h1 : size = 0 ∨ src = []
  · rw [if_pos h1] at hc; exact hdest c hc
  · rw [if_neg h1] at hc
    by_cases h2 : dest.length < size
    · simp only [h2, if_true] at hc
      rcases List.mem_append.1 hc with h | h
      · exact hdest c h
      · by_cases h3 : size - dest.length = 0
        · simp [h3] at h
        · rw [if_neg h3] at h
          exact hsrc c (List.mem_of_mem_take h)
    · simp only [h2, if_false] at hc; exact hdest c hc

/-- C12: truncating append, on the bytes of the buffer. Let the buffer hold the
string `dest` of length `l`, its NUL and further bytes, at least `size` bytes
in all, and let `src` be a string. After `strscat(dest, src, size)` the buffer
has the same length and holds a string, its NUL and further bytes. For
`size > 0` and `l < size` that string is the first
`min (l + len src) (size - 1)` characters of `dest` followed by `src`, and it
is shorter than `size`: the NUL lies within `size` bytes. When the buffer is
already full (`l >= size - 1`) or `src` is empty, the string is `dest` as
before. -/
theorem strscat_buffer (dest rest src : List Char) (size : Nat)
    (hdest : ∀ c ∈ dest, c ≠ NUL) (hsrc : ∀ c ∈ src, c ≠ NUL)
    (hsize : size ≤ (dest ++ NUL :: rest).length) :
    (∃ tl, strscat_bytes (dest ++ NUL :: rest) src size =
        cstring (strscat_bytes (dest ++ NUL :: rest) src size) ++ NUL :: tl) ∧
      (strscat_bytes (dest ++ NUL :: rest) src size).length = (dest ++ NUL :: rest).length ∧
      (0 < size → dest.length < size →
        cstring (strscat_bytes (dest ++ NUL :: rest) src size) =
          (dest ++ src).take (min (dest.length + src.length) (size - 1)) ∧
        (cstring (strscat_bytes (dest ++ NUL :: rest) src size)).length < size) ∧
      (size - 1 ≤ dest.length ∨ src = [] →
        cstring (strscat_bytes (dest ++ NUL :: rest) src size) = dest) := by
  obtain ⟨tl, hbytes, hlen⟩ := strscat_bytes_spec dest rest src size hdest hsize
  have hstr : cstring (strscat_bytes (dest ++ NUL :: rest) src size) = strscat dest src size := by
    rw [hbytes]
    exact cstring_append_nul _ _ (strscat_no_nul dest src size hdest hsrc)
  have hspec := strscat_truncates dest src size
  refine ⟨⟨tl, by rw [hstr]; exact hbytes⟩, hlen, ?_, ?_⟩
  · intro h0 hl
    rw [hstr]
    exact hspec.1 h0 hl
  · intro h
    rw [hstr]
    exact hspec.2 h

/-- C12 for a buffer of 10 bytes that holds `"120 k"`, `src = "bit/s"` and
`size = 8`: two characters of `src` fit. -/
theorem strscat_buffer_witness :
    ((∀ c ∈ "120 k".toList, c ≠ NUL) ∧ (∀ c ∈ "bit/s".toList, c ≠ NUL) ∧
      8 ≤ ("120 k".toList ++ NUL :: ['x', 'y', 'z', 'w']).length ∧ 0 < 8 ∧
      "120 k".toList.length < 8) ∧
    strscat_bytes ("120 k".toList ++ NUL :: ['x', 'y', 'z', 'w']) "bit/s".toList 8 =
      "120 kbi".toList ++ [NUL, 'z', 'w'] ∧
    cstring (strscat_bytes ("120 k".toList ++ NUL :: ['x', 'y', 'z', 'w']) "bit/s".toList 8) =
      ("120 k".toList ++ "bit/s".toList).take
        (min ("120 k".toList.length + "bit/s".toList.length) (8 - 1)) :=
  ⟨by decide, by decide,
    ((strscat_buffer "120 k".toList ['x', 'y', 'z', 'w'] "bit/s".toList 8 (by decide) (by decide)
      (by decide)).2.2.1 (by decide) (by decide)).1⟩

/-- C13: decoder reference value. Let `step` be 1024 if `binary` and 1000
otherwise. On an input that is only a digit run of value `a <= UINT64_MAX` the
parser returns 0 and stores `a`. On an input made of a digit run of value `a`,
optionally `'.'` and `m <= fraction` digits of value `d`, spaces, and
optionally the character at index `k` of `" kMGTPE"` (`k = 0` without it), that
is not only the digit run, the parser returns 0 and stores
`(a * 10 ^ m + d) * 10 ^ (fraction - m) * step ^ k` whenever that value is at
most `UINT64_MAX`. -/
theorem decoder_reference_value (dst : Nat) (binary : Bool) (fraction : Nat)
    (digits fp ds suffix : List Char) (spaces k : Nat)
    (hne : digits ≠ []) (hdig : ∀ c ∈ digits, is_digit c = true)
    (hfp : (fp = [] ∧ ds = []) ∨ fp = '.' :: ds) (hds : ∀ c ∈ ds, is_digit c = true)
    (hm : ds.length ≤ fraction)
    (hs : (suffix = [] ∧ k = 0) ∨ ∃ c, suffix = [c] ∧ symbol.get? k = some c) :
    (decimal_value 0 digits ≤ UINT64_MAX →
      str_parse_human_readable_u64 dst digits fraction binary = (0, decimal_value 0 digits)) ∧
    (fp ++ List.replicate spaces ' ' ++ suffix ≠ [] →
      (decimal_value 0 digits * 10 ^ ds.length + decimal_value 0 ds) *
          10 ^ (fraction - ds.length) * (if binary then 1024 else 1000) ^ k ≤ UINT64_MAX →
      str_parse_human_readable_u64 dst (digits ++ fp ++ List.replicate spaces ' ' ++ suffix)
          fraction binary =
        (0, (decimal_value 0 digits * 10 ^ ds.length + decimal_value 0 ds) *
          10 ^ (fraction - ds.length) * (if binary then 1024 else 1000) ^ k)) := by
  constructor
  · intro ha
    have hst := strtoull_digits digits [] hne hdig (by simp)
    rw [List.append_nil, if_neg (not_lt.2 ha)] at hst
    simp [str_parse_human_readable_u64, scan_human_readable, hst]
  · intro hrest hv
    have hk : k < 7 := by
      rcases hs with ⟨_, rfl⟩ | ⟨c, _, hc⟩
      · decide
      · by_contra hk
        have : symbol.get? k = none := List.get?_eq_none.2 (by simp [symbol]; omega)
        rw [this] at hc; cases hc
    obtain ⟨_, hstep_pos, _⟩ := iso_prefix_factor_pow binary k (by omega)
    have hp1 : 0 < 10 ^ (fraction - ds.length) := Nat.pow_pos (by decide)
    -- the intermediate values are bounded by the final one
    have hN : (decimal_value 0 digits * 10 ^ ds.length + decimal_value 0 ds) *
        10 ^ (fraction - ds.length) ≤ UINT64_MAX :=
      le_trans (Nat.le_mul_of_pos_right _ hstep_pos) hv
    have hnum : decimal_value 0 digits * 10 ^ ds.length + decimal_value 0 ds ≤ UINT64_MAX :=
      le_trans (Nat.le_mul_of_pos_right _ hp1) hN
    have ha : decimal_value 0 digits ≤ UINT64_MAX :=
      le_trans (le_trans (Nat.le_mul_of_pos_right _ (Nat.pow_pos (by decide)))
        (Nat.le_add_right _ _)) hnum
    -- the text behind the digit run
    have htail2 : ∀ c, (List.replicate spaces ' ' ++ suffix).head? = some c →
        is_digit c = false ∧ c ≠ '.' := by
      intro c hc
      cases spaces with
      | zero =>
        simp only [List.replicate_zero, List.nil_append] at hc
        rcases hs with ⟨rfl, _⟩ | ⟨x, rfl, hx⟩
        · cases hc
        · simp only [List.head?_cons, Option.some.injEq] at hc
          subst hc
          exact symbol_not_digit _ k hx
      | succ s =>
        simp only [List.replicate_succ, List.cons_append, List.head?_cons,
          Option.some.injEq] at hc
        rw [← hc]; exact ⟨rfl, by decide⟩
    have htailhead : ∀ c, (List.replicate spaces ' ' ++ suffix).head? = some c →
        is_digit c = false := fun c hc => (htail2 c hc).1
    have hresthead : ∀ c, (fp ++ (List.replicate spaces ' ' ++ suffix)).head? = some c →
        is_digit c = false := by
      intro c hc
      rcases hfp with ⟨rfl, _⟩ | rfl
      · exact htailhead c hc
      · simp only [List.cons_append, List.head?_cons, Option.some.injEq] at hc
        rw [← hc]; rfl
    have hst := strtoull_digits digits (fp ++ (List.replicate spaces ' ' ++ suffix)) hne hdig
      hresthead
    rw [if_neg (not_lt.2 ha)] at hst
    have hinput : digits ++ fp ++ List.replicate spaces ' ' ++ suffix =
        digits ++ (fp ++ (List.replicate spaces ' ' ++ suffix)) := by
      simp only [List.append_assoc]
    rw [hinput]
    have hscan : scan_human_readable (digits ++ (fp ++ (List.replicate spaces ' ' ++ suffix)))
        fraction binary =
        Scan.scaling ((decimal_value 0 digits * 10 ^ ds.length + decimal_value 0 ds) *
          10 ^ (fraction - ds.length)) ((if binary then 1024 else 1000) ^ k) := by
      have he : (strtoull (digits ++ (fp ++ (List.replicate spaces ' ' ++ suffix)))).erange =
          false := by rw [hst]
      rcases hfp with ⟨rfl, rfl⟩ | rfl
      · -- no fractional part
        simp only [List.nil_append] at hrest hst he ⊢
        obtain ⟨c, cs, hcs⟩ : ∃ c cs, List.replicate spaces ' ' ++ suffix = c :: cs := by
          cases h : List.replicate spaces ' ' ++ suffix with
          | nil => exact absurd h hrest
          | cons c cs => exact ⟨c, cs, rfl⟩
        have hdot : c ≠ '.' := (htail2 c (by rw [hcs]; rfl)).2
        rw [scan_of_next _ _ _ c cs he (by rw [hst, hcs]), if_neg hdot, ← hcs, hst]
        simp only [Int.toNat_ofNat, List.length_nil, Nat.pow_zero, Nat.mul_one,
          decimal_value, List.foldl_nil, Nat.add_zero, Nat.sub_zero] at hN ⊢
        rw [fraction_pad_exact _ _ (by simp only [UINT64_MAX] at hN; omega)]
        exact scan_suffix_accepts binary _ spaces k suffix hs
      · -- fractional part with `ds.length` digits
        have hrun := fraction_digits_run (fraction : Int) (List.replicate spaces ' ' ++ suffix)
          htailhead ds (decimal_value 0 digits) 0 hds (by omega)
          (by rw [decimal_value_shift]; simp only [UINT64_MAX] at hnum; omega)
        rw [scan_of_next _ _ _ '.' (ds ++ (List.replicate spaces ' ' ++ suffix)) he
          (by rw [hst]; rfl), if_pos rfl, hst]
        simp only [hrun]
        have hcount : ((fraction : Int) - (0 + (ds.length : Int))).toNat =
            fraction - ds.length := by omega
        rw [hcount, decimal_value_shift ds (decimal_value 0 digits),
          fraction_pad_exact _ _ (by simp only [UINT64_MAX] at hN; omega)]
        exact scan_suffix_accepts binary _ spaces k suffix hs
    exact parse_of_scan_scaling dst _ _ _ _ _ hstep_pos hv hscan

/-- C13 at the inputs `"1500"` and `"1.5 k"` with `fraction = 2` in decimal mode. -/
theorem decoder_reference_value_witness :
    str_parse_human_readable_u64 7 "1500".toList (2 : Nat) false =
        (0, decimal_value 0 "1500".toList) ∧
      str_parse_human_readable_u64 7 ("1".toList ++ ".5".toList ++ List.replicate 1 ' ' ++
          "k".toList) (2 : Nat) false =
        (0, (decimal_value 0 "1".toList * 10 ^ "5".toList.length + decimal_value 0 "5".toList) *
          10 ^ (2 - "5".toList.length) * (if false then 1024 else 1000) ^ 1) :=
  ⟨(decoder_reference_value 7 false 2 "1500".toList [] [] [] 0 0 (by decide) (by decide)
      (Or.inl ⟨rfl, rfl⟩) (by decide) (by decide) (Or.inl ⟨rfl, rfl⟩)).1 (by decide),
    (decoder_reference_value 7 false 2 "1".toList ".5".toList "5".toList "k".toList 1 1
      (by decide) (by decide) (Or.inr rfl) (by decide) (by decide)
      (Or.inr ⟨'k', rfl, rfl⟩)).2 (by decide) (by decide)⟩

/-- C14: the fractional digits in binary mode are not those of the true
quotient. For 1536 (`fraction = 0`, `binary = true`, `raw = false`) the encoder
selects `k` with the divisor 1024 and prints `"1.502 k"`, whereas
`1536 / 1024` is 1.5, that is `1536 * 1000 / 1024 = 1500` thousandths: the
loop divides the multiplier 1024 by 10 with truncation (102, 10, 1) and
takes the digits 5, 0, 2 from these. -/
theorem binary_fraction_digits_wrong :
    str_get_human_readable_u64 48 1536 none 0 true false = Except.ok "1.502 k".toList ∧
      scale_loop false 1536 1024 symbol 1 = (1024, ['k', 'M', 'G', 'T', 'P', 'E']) ∧
      1536 * 1000 / 1024 = 1500 ∧ 1536 * 1000 % 1024 = 0 := by
  decide

/-- C15: the suffix loop runs past `E`. For `2 ^ 64 - 1` (`fraction = 0`,
`binary = false`, `raw = false`) the loop leaves `unit_modifier` on the
terminating NUL of `symbol` with the multiplier `10 ^ 21 mod 2 ^ 64`, not
`1000 ^ 6`; the character written as suffix is that NUL, so the text is
`"4.759 "`. In binary mode `2 ^ 60` takes the loop past `E` as well, with the
multiplier 0. -/
theorem suffix_loop_passes_E :
    str_get_human_readable_u64 48 (2 ^ 64 - 1) none 0 false false = Except.ok "4.759 ".toList ∧
      scale_loop false (2 ^ 64 - 1) 1000 symbol 1 = (10 ^ 21 % 2 ^ 64, []) ∧
      deref (scale_loop false (2 ^ 64 - 1) 1000 symbol 1).2 = Char.ofNat 0 ∧
      10 ^ 21 % 2 ^ 64 ≠ 10 ^ 0 * 1000 ^ 6 ∧
      scale_loop false (2 ^ 60) 1024 symbol 1 = (0, []) := by
  decide

/-- C16, as stated, fails on both halves. Without a suffix (raw mode, or 12345
below the first threshold `10 ^ 4 * 1000`) and `fraction = 4` the encoder
writes four fractional digits; with the suffix `M` and `fraction = 0` it
writes three fractional digits. -/
theorem fraction_limit_is_reversed :
    str_get_human_readable_u64 48 12345 none 4 false true = Except.ok "1.2345  ".toList ∧
      str_get_human_readable_u64 48 12345 none 4 false false = Except.ok "1.2345  ".toList ∧
      str_get_human_readable_u64 48 1234567 none 0 false false = Except.ok "1.234 M".toList := by
  decide

/-- C16, amended: the limit of three digits belongs to the suffixed case.
Whenever the encoder returns a text for a `fraction >= 0`, the text is a run of
digits `whole`, the fractional digits `ds` (behind a `'.'` when there are
any), a space, the suffix `sfx` and what was appended of the unit. No suffix
is applied (`sfx` is the blank) exactly in raw mode or when the number is below
`10 ^ fraction * step` in 64 bit arithmetic; then `ds` has at most `fraction`
digits. When a suffix is applied `ds` has at most 3 digits, whatever
`fraction` is. -/
theorem fraction_digit_limits (out_len number : Nat) (unit : Option (List Char))
    (fraction : Int) (binary raw : Bool) (text : List Char) (hf : 0 ≤ fraction)
    (h : str_get_human_readable_u64 out_len number unit fraction binary raw = Except.ok text) :
    ∃ whole ds sfx appended,
      text = whole ++ (if ds = [] then [] else '.' :: ds) ++ ' ' :: (sfx ++ appended) ∧
      (∀ c ∈ whole, is_digit c = true) ∧ (∀ c ∈ ds, is_digit c = true) ∧
      (sfx = [' '] ↔ (raw = true ∨
        number < 10 ^ fraction.toNat % 2 ^ 64 * (if binary then 1024 else 1000) % 2 ^ 64)) ∧
      (sfx = [' '] → (ds.length : Int) ≤ fraction) ∧ (sfx ≠ [' '] → ds.length ≤ 3) := by
  obtain ⟨out, idx, appended, _, hloop, htext, _⟩ :=
    encoder_ok_inv out_len number unit fraction binary raw text h
  have hblank := scale_loop_blank raw number (if binary then 1024 else 1000)
    (fraction_scale fraction.toNat 1)
  have hm : fraction_scale fraction.toNat 1 = 10 ^ fraction.toNat % 2 ^ 64 := by
    rw [fraction_scale_mod _ 1 (by norm_num), Nat.one_mul]
  have hmle : fraction_scale fraction.toNat 1 ≤ 10 ^ fraction.toNat := by
    rw [hm]; exact Nat.mod_le _ _
  rw [hm] at hblank
  -- without a suffix the multiplier is the one the first loop computed
  have hmult : (scale_loop raw number (if binary then 1024 else 1000) symbol
      (fraction_scale fraction.toNat 1)).2.take 1 = [' '] →
      (scale_loop raw number (if binary then 1024 else 1000) symbol
        (fraction_scale fraction.toNat 1)).1 ≤ 10 ^ fraction.toNat := by
    intro hb
    by_cases hc : raw = false ∧
        number ≥ fraction_scale fraction.toNat 1 * (if binary then 1024 else 1000) % 2 ^ 64
    · exfalso
      have := (scale_loop_blank raw number (if binary then 1024 else 1000)
        (fraction_scale fraction.toNat 1)).1.1 hb
      rcases this with h1 | h1
      · rw [hc.1] at h1; cases h1
      · exact absurd hc.2 (not_le.2 h1)
    · simp only [symbol, scale_loop, hc, if_false]
      exact hmle
  rw [hm] at hmult hloop htext
  generalize scale_loop raw number (if binary then 1024 else 1000) symbol
    (10 ^ fraction.toNat % 2 ^ 64) = sc at hloop htext hblank hmult
  obtain ⟨_, hdig, _⟩ := print_u64_spec (number / sc.1)
  generalize print_u64 (number / sc.1) = whole at hloop hdig htext
  obtain ⟨ds0, hout, hds, hfr, hexp, hidx⟩ := fraction_loop_shape _ _ _ _ _ _ _ _ _ hloop
  -- the digits that stay in the text are a prefix of the digits written
  have hbound : (List.take 1 sc.2 = [' '] → (ds0.length : Int) ≤ fraction) ∧
      (List.take 1 sc.2 ≠ [' '] → ds0.length ≤ 3) := by
    constructor
    · intro hb
      have := hexp _ (hmult hb)
      omega
    · intro hb
      have hd : deref sc.2 ≠ ' ' := fun hd => hb (hblank.2.2 hd)
      rw [if_pos hd] at hfr
      have := hfr (by norm_num)
      omega
  rcases hidx with hidx | ⟨pre, d, post, hsplit, _, hidx⟩
  · refine ⟨whole, [], List.take 1 sc.2, appended, ?_, hdig, by simp, hblank.1, ?_, ?_⟩
    · rw [htext, hout, hidx, List.append_assoc whole, List.take_left]
      simp
    · intro _; simpa using hf
    · intro _; simp
  · refine ⟨whole, pre ++ [d], List.take 1 sc.2, appended, ?_, hdig, ?_, hblank.1, ?_, ?_⟩
    · have htake : List.take idx out = whole ++ '.' :: (pre ++ [d]) := by
        have h1 : out = (whole ++ '.' :: (pre ++ [d])) ++ post := by
          rw [hout, hsplit]; simp
        have h2 : idx = (whole ++ '.' :: (pre ++ [d])).length := by
          rw [hidx]; simp; omega
        rw [h1, h2, List.take_left]
      rw [htext, htake]
      simp
    · intro c hc
      apply hds c
      rw [hsplit]
      rcases List.mem_append.1 hc with hc | hc
      · exact List.mem_append_left _ hc
      · simp at hc; subst hc
        exact List.mem_append_right _ (List.mem_cons_self _ _)
    · intro hb
      have h1 := hbound.1 hb
      have h2 : (pre ++ [d]).length ≤ ds0.length := by rw [hsplit]; simp
      omega
    · intro hb
      have h1 := hbound.2 hb
      have h2 : (pre ++ [d]).length ≤ ds0.length := by rw [hsplit]; simp
      omega

/-- C16, amended, at a number with suffix (`"1.234 M"` for `fraction = 0`). -/
theorem fraction_digit_limits_witness :
    ((0 : Int) ≤ 0 ∧
      str_get_human_readable_u64 48 1234567 none 0 false false = Except.ok "1.234 M".toList) ∧
    ∃ whole ds sfx appended,
      "1.234 M".toList =
        whole ++ (if ds = [] then [] else '.' :: ds) ++ ' ' :: (sfx ++ appended) ∧
      (∀ c ∈ whole, is_digit c = true) ∧ (∀ c ∈ ds, is_digit c = true) ∧
      (sfx = [' '] ↔ (false = true ∨
        1234567 < 10 ^ (0 : Int).toNat % 2 ^ 64 * (if false then 1024 else 1000) % 2 ^ 64)) ∧
      (sfx = [' '] → (ds.length : Int) ≤ 0) ∧ (sfx ≠ [' '] → ds.length ≤ 3) :=
  ⟨by decide, fraction_digit_limits 48 1234567 none 0 false false "1.234 M".toList (by decide)
    (by decide)⟩

/-- C17: no trailing zeros. Whenever the encoder returns a text, for every
number, `fraction`, unit and value of the `binary` and `raw` flags, the text
is a non-empty run of digits, a fractional part `frac` and the space that
precedes the suffix, where `frac` is either empty or a `'.'` followed by
digits the last of which is not `'0'`: the numeric part ends neither in a
fractional `'0'` nor in `'.'`. -/
theorem no_trailing_zero (out_len number : Nat) (unit : Option (List Char)) (fraction : Int)
    (binary raw : Bool) (text : List Char)
    (h : str_get_human_readable_u64 out_len number unit fraction binary raw = Except.ok text) :
    ∃ whole frac rest, text = whole ++ frac ++ ' ' :: rest ∧
      whole ≠ [] ∧ (∀ c ∈ whole, is_digit c = true) ∧
      (frac = [] ∨ ∃ pre d, frac = '.' :: (pre ++ [d]) ∧ (∀ c ∈ pre, is_digit c = true) ∧
        is_digit d = true ∧ d ≠ '0') := by
  obtain ⟨out, idx, appended, _, hloop, htext, _⟩ :=
    encoder_ok_inv out_len number unit fraction binary raw text h
  generalize scale_loop raw number (if binary then 1024 else 1000) symbol
    (fraction_scale fraction.toNat 1) = sc at hloop htext
  obtain ⟨hne, hdig, _⟩ := print_u64_spec (number / sc.1)
  generalize print_u64 (number / sc.1) = whole at hloop hne hdig
  obtain ⟨ds, hout, hds, _, _, hidx⟩ := fraction_loop_shape _ _ _ _ _ _ _ _ _ hloop
  rcases hidx with hidx | ⟨pre, d, post, hsplit, hd, hidx⟩
  · refine ⟨whole, [], List.take 1 sc.2 ++ appended, ?_, hne, hdig, Or.inl rfl⟩
    rw [htext, hout, hidx, List.append_assoc whole, List.take_left]
    simp
  · refine ⟨whole, '.' :: (pre ++ [d]), List.take 1 sc.2 ++ appended, ?_, hne, hdig,
      Or.inr ⟨pre, d, rfl, ?_, ?_, hd⟩⟩
    · have htake : List.take idx out = whole ++ '.' :: (pre ++ [d]) := by
        have h1 : out = (whole ++ '.' :: (pre ++ [d])) ++ post := by
          rw [hout, hsplit]; simp
        have h2 : idx = (whole ++ '.' :: (pre ++ [d])).length := by
          rw [hidx]; simp; omega
        rw [h1, h2, List.take_left]
      rw [htext, htake]
      simp
    · intro c hc
      exact hds c (by rw [hsplit]; exact List.mem_append_left _ hc)
    · exact hds d (by rw [hsplit]; exact List.mem_append_right _ (List.mem_cons_self _ _))

/-- C17 at the number 1100 in decimal mode (`"1.1 k"`). -/
theorem no_trailing_zero_witness :
    str_get_human_readable_u64 48 1100 none 0 false false = Except.ok "1.1 k".toList ∧
    ∃ whole frac rest, "1.1 k".toList = whole ++ frac ++ ' ' :: rest ∧
      whole ≠ [] ∧ (∀ c ∈ whole, is_digit c = true) ∧
      (frac = [] ∨ ∃ pre d, frac = '.' :: (pre ++ [d]) ∧ (∀ c ∈ pre, is_digit c = true) ∧
        is_digit d = true ∧ d ≠ '0') :=
  ⟨by decide, no_trailing_zero 48 1100 none 0 false false "1.1 k".toList (by decide)⟩

/-- C18: the digit assertion fails. For 2047 (`fraction = 0`, `binary = true`,
`raw = false`) the digit loop starts with `n = 2047` and the multiplier 1024;
its first iteration computes `print = 2047 % 1024 / (1024 / 10) = 10`, so
`assert (print < 10)` fails and the encoder stops there. -/
theorem digit_assertion_fails :
    2047 % 1024 / (1024 / 10) = 10 ∧
      fraction_loop 48 21 2047 1024 3 ['1', '.'] 1 = Except.error Fault.assertion ∧
      _get_human_readable_u64 48 2047 none 0 true false = Except.error Fault.assertion := by
  decide

/-- C19: the encoder divides by zero. For `2 ^ 60` (`fraction = 0`,
`binary = true`, `raw = false`) the suffix loop reaches `E` with the
multiplier `2 ^ 60`; there `multiplier * step` is `2 ^ 70 mod 2 ^ 64 = 0`, the
test `number >= 0` holds, and the loop ends with `multiplier = 0`, the value
`number / multiplier` is then computed with. -/
theorem encoder_divides_by_zero :
    _get_human_readable_u64 48 (2 ^ 60) none 0 true false = Except.error Fault.div_by_zero ∧
      (scale_loop false (2 ^ 60) 1024 symbol (fraction_scale 0 1)).1 = 0 ∧
      2 ^ 60 * 1024 % 2 ^ 64 = 0 := by
  decide

/-- C20: a successful decode can be inexact. On `"18446744073709551615.5"`
with `fraction = 1` and `binary = false` the parser returns 0 and stores
18446744073709551611: the statement `num *= 10` of the digit loop wrapped
modulo `2 ^ 64`. The exact value `(a * 10 ^ 1 + 5) * 10 ^ 0 * 1000 ^ 0` is
184467440737095516155, which is above `UINT64_MAX`. -/
theorem decode_wraps_silently :
    str_parse_human_readable_u64 0 "18446744073709551615.5".toList 1 false =
        (0, 18446744073709551611) ∧
      scan_human_readable "18446744073709551615.5".toList 1 false =
        Scan.scaling 18446744073709551611 1 ∧
      (18446744073709551615 * 10 ^ 1 + 5) * 10 ^ (1 - 1) * 1000 ^ 0 = 184467440737095516155 ∧
      184467440737095516155 > UINT64_MAX := by
  decide

end OONF
